import Mathlib

/-!
Verification development for the momentum-finance build-descriptor tooling.

Part 1 embeds the line transformation of `src/Tools/fix_missing_commas.py`
(`fix_commas`) over `List Char` and proves it idempotent.

Part 2 models the structured core (object graph, integrity checker,
mutation API, parser and canonicalizing serializer) described by the
specification, and proves the specified properties about it.
-/

namespace FixCommas

/-- Characters of one line of the file, as Python manipulates strings. -/
abbrev Chars := List Char

/-- Python whitespace for `str.strip`/`str.rstrip` and the regex class
backslash-s, restricted to the ASCII range used by the file format. -/
def pyIsSpace (c : Char) : Bool :=
  c = ' ' || c = '\t' || c = '\n' || c = '\r' || c = '\x0b' || c = '\x0c'

/-- The character class of the id regex in `fix_missing_commas.py`:
uppercase or lowercase hex digits. -/
def isHexDigit (c : Char) : Bool :=
  ('0' ≤ c && c ≤ '9') || ('a' ≤ c && c ≤ 'f') || ('A' ≤ c && c ≤ 'F')

/-- Python `str.rstrip()` on a line. -/
def rstrip (l : Chars) : Chars :=
  (l.reverse.dropWhile pyIsSpace).reverse

/-- Python `str.lstrip()`. -/
def lstrip (l : Chars) : Chars :=
  l.dropWhile pyIsSpace

/-- Python `str.strip()`. -/
def strip (l : Chars) : Chars :=
  lstrip (rstrip l)

/-- Python `s.endswith(c)` for a one-character suffix. -/
def endsWith (l : Chars) (c : Char) : Bool :=
  l.getLast? = some c

/-- The lazy scan of `.*?\*/` in the id regex: consume characters (never a
newline, which `.` does not match) up to and including the first `*/`,
returning what follows it. -/
def scanClose : Chars → Option Chars
  | '*' :: '/' :: rest => some rest
  | '\n' :: _ => none
  | _ :: rest => scanClose rest
  | [] => none

/-- The `/\*.*?\*/\s*` part of the id regex: a literal `/*`, the lazy scan
to the first `*/`, then greedy whitespace; returns the unconsumed rest. -/
def idTail2 : Chars → Option Chars
  | '/' :: '*' :: rest2 => (scanClose rest2).map (·.dropWhile pyIsSpace)
  | _ => none

/-- The `\s/\*.*?\*/\s*` part of the id regex: exactly one whitespace
character, then `idTail2`. -/
def idTail1 : Chars → Option Chars
  | d :: rest1 => if pyIsSpace d then idTail2 rest1 else none
  | [] => none

/-- Matching the anchored regex `^(\s*[A-Fa-f0-9]{24}\s/\*.*?\*/\s*)` of
`fix_missing_commas.py` against a stripped line; on success returns
`stripped[match.end():]`, the text after the captured group. The greedy
`\s*` and the hex class are disjoint, and the hex class excludes
whitespace, so maximal-munch consumption is exact: no backtracking can
produce a different match. -/
def idMatchRest (stripped : Chars) : Option Chars :=
  if ((stripped.dropWhile pyIsSpace).take 24).length = 24
      ∧ ((stripped.dropWhile pyIsSpace).take 24).all isHexDigit
  then idTail1 ((stripped.dropWhile pyIsSpace).drop 24)
  else none

/-- The comma-fixing branch of the per-line loop of `fix_commas`: if the
stripped line matches the id regex and the remainder neither ends with a
comma nor a semicolon, is not a definition (no `=`), and the stripped line
does not already end with a comma, rewrite it to `stripped + ",\n"`. -/
def fixCommaStep (line : Chars) : Chars :=
  match idMatchRest (rstrip line) with
  | none => line
  | some rest =>
    if endsWith (strip rest) ',' || endsWith (strip rest) ';' then line
    else if '=' ∈ rest then line
    else if endsWith (rstrip line) ',' then line
    else rstrip line ++ [',', '\n']

/-- `line.startswith("//")`. -/
def startsSlashSlash (l : Chars) : Bool :=
  match l with
  | '/' :: '/' :: _ => true
  | _ => false

/-- The canonical header line that `fix_commas` writes at line 1. -/
def canonicalHeaderLine : Chars := "// !$*UTF8*$!\n".toList

/-- The header-fixing branch of the per-line loop: on line index 0, a line
starting with `//` whose stripped form is not the magic header is replaced
by the canonical header line. -/
def headerStep (i : Nat) (line : Chars) : Chars :=
  if i = 0 ∧ startsSlashSlash line then
    if strip line ≠ "// !$*UTF8*$!".toList then canonicalHeaderLine else line
  else line

/-- One iteration of the `for i, line in enumerate(lines)` loop body of
`fix_commas`: the comma fix followed by the header fix on the result. -/
def fixLine (i : Nat) (line : Chars) : Chars :=
  headerStep i (fixCommaStep line)

/-- The whole per-line pass of `fix_commas` over the list of lines,
carrying the running line index. -/
def fixLines (i : Nat) : List Chars → List Chars
  | [] => []
  | l :: ls => fixLine i l :: fixLines (i + 1) ls

/-- `fix_commas`' transformation of the file content, as the list of its
lines. -/
def fix_commas (ls : List Chars) : List Chars :=
  fixLines 0 ls

theorem dropWhile_append_one {p : Char → Bool} {c : Char} (hc : p c = false)
    (xs : Chars) : (xs ++ [c]).dropWhile p = xs.dropWhile p ++ [c] := by
  induction xs with
  | nil => simp [List.dropWhile, hc]
  | cons x xs ih =>
    simp only [List.cons_append, List.dropWhile]
    cases hx : p x <;> simp [hx, ih]

theorem scanClose_append {c : Char} :
    ∀ {xs r : Chars}, scanClose xs = some r →
      scanClose (xs ++ [c]) = some (r ++ [c])
  | '*' :: '/' :: rest, r, h => by
    simp [scanClose] at h
    simp [scanClose, h]
  | '\n' :: xs, r, h => by simp [scanClose] at h
  | [], r, h => by simp [scanClose] at h
  | x :: xs, r, h => by
    by_cases hstar : x = '*'
    · subst hstar
      match xs, h with
      | '/' :: rest, h => simp [scanClose] at h; simp [scanClose, h]
      | [], h => simp [scanClose] at h
      | y :: ys, h =>
        by_cases hy : y = '/'
        · subst hy; simp [scanClose] at h; simp [scanClose, h]
        · have h' : scanClose (y :: ys) = some r := by
            rw [show scanClose ('*' :: y :: ys) = scanClose (y :: ys) from by
              cases y <;> simp_all [scanClose]] at h
            exact h
          have := scanClose_append (c := c) h'
          rw [show scanClose ('*' :: y :: ys ++ [c]) = scanClose (y :: ys ++ [c]) from by
            cases y <;> simp_all [scanClose]]
          simpa using this
    · by_cases hnl : x = '\n'
      · subst hnl; simp [scanClose] at h
      · have h' : scanClose xs = some r := by
          rw [show scanClose (x :: xs) = scanClose xs from by
            cases xs with
            | nil => simp [scanClose] at h ⊢
            | cons y ys => cases x <;> simp_all [scanClose]] at h
          exact h
        have := scanClose_append (c := c) h'
        rw [show scanClose (x :: xs ++ [c]) = scanClose (xs ++ [c]) from by
          cases hxs : xs ++ [c] with
          | nil => simp at hxs
          | cons y ys => cases x <;> simp_all [scanClose]]
        exact this

theorem dropWhile_append_of_ne_nil {p : Char → Bool} {xs : Chars}
    (h : xs.dropWhile p ≠ []) (ys : Chars) :
    (xs ++ ys).dropWhile p = xs.dropWhile p ++ ys := by
  induction xs with
  | nil => simp [List.dropWhile] at h
  | cons x xs ih =>
    simp only [List.cons_append, List.dropWhile] at h ⊢
    cases hx : p x
    · simp [hx]
    · simp only [hx] at h ⊢
      exact ih h

theorem idTail2_append {c : Char} {xs r : Chars} (hc : pyIsSpace c = false)
    (h : idTail2 xs = some r) :
    idTail2 (xs ++ [c]) = some (r ++ [c]) := by
  cases xs with
  | nil => simp [idTail2] at h
  | cons x t =>
    cases t with
    | nil => cases x; simp_all [idTail2]
    | cons y u =>
      by_cases hx : x = '/'
      · subst hx
        by_cases hy : y = '*'
        · subst hy
          simp only [idTail2, Option.map_eq_some'] at h
          obtain ⟨rest3, hsc, hr⟩ := h
          simp only [List.cons_append, idTail2, scanClose_append (c := c) hsc,
            Option.map_some', Option.some.injEq]
          rw [← hr]
          exact dropWhile_append_one hc rest3
        · exfalso
          have hnone : idTail2 ('/' :: y :: u) = none := by
            cases y; simp_all [idTail2]
          rw [hnone] at h; cases h
      · exfalso
        have hnone : idTail2 (x :: y :: u) = none := by
          cases x; simp_all [idTail2]
        rw [hnone] at h; cases h

theorem idTail1_append {c : Char} {xs r : Chars} (hc : pyIsSpace c = false)
    (h : idTail1 xs = some r) :
    idTail1 (xs ++ [c]) = some (r ++ [c]) := by
  cases xs with
  | nil => simp [idTail1] at h
  | cons d rest1 =>
    simp only [idTail1] at h
    by_cases hsp : pyIsSpace d
    · simp only [List.cons_append, idTail1, if_pos hsp] at h ⊢
      exact idTail2_append hc h
    · simp [hsp] at h

theorem idMatchRest_append {s r : Chars} {c : Char} (hc : pyIsSpace c = false)
    (h : idMatchRest s = some r) :
    idMatchRest (s ++ [c]) = some (r ++ [c]) := by
  unfold idMatchRest at h ⊢
  by_cases hlen : ((s.dropWhile pyIsSpace).take 24).length = 24
      ∧ ((s.dropWhile pyIsSpace).take 24).all isHexDigit
  case neg => rw [if_neg hlen] at h; cases h
  rw [if_pos hlen] at h
  have hne : s.dropWhile pyIsSpace ≠ [] := by
    intro he; rw [he] at hlen; simp at hlen
  have hdw : (s ++ [c]).dropWhile pyIsSpace = s.dropWhile pyIsSpace ++ [c] :=
    dropWhile_append_of_ne_nil hne [c]
  have hlen24 : 24 ≤ (s.dropWhile pyIsSpace).length := by
    rcases hlen with ⟨h1, _⟩
    rw [List.length_take] at h1
    omega
  rw [hdw, List.take_append_of_le_length hlen24,
    List.drop_append_of_le_length hlen24, if_pos hlen]
  exact idTail1_append hc h

theorem idMatchRest_head {s r : Chars} (h : idMatchRest s = some r) :
    ∃ a u, s = a :: u ∧ a ≠ '/' := by
  cases s with
  | nil => simp [idMatchRest, idTail1] at h
  | cons a u =>
    refine ⟨a, u, rfl, ?_⟩
    intro ha
    subst ha
    have hsp : pyIsSpace '/' = false := by decide
    have hx : isHexDigit '/' = false := by decide
    unfold idMatchRest at h
    rw [List.dropWhile_cons, hsp] at h
    simp only [Bool.false_eq_true, if_false] at h
    by_cases hcond : ((('/' :: u).take 24).length = 24
        ∧ (('/' :: u).take 24).all isHexDigit)
    · rcases hcond with ⟨h1, h2⟩
      have htk : ('/' :: u).take 24 = '/' :: u.take 23 := by
        simp [List.take_succ_cons]
      rw [htk] at h2
      simp [List.all_cons, hx] at h2
    · rw [if_neg hcond] at h; cases h

theorem rstrip_append_comma_newline (xs : Chars) :
    rstrip (xs ++ [',', '\n']) = xs ++ [','] := by
  have h1 : pyIsSpace '\n' = true := by decide
  have h2 : pyIsSpace ',' = false := by decide
  simp [rstrip, List.dropWhile_cons, h1, h2]

theorem rstrip_append_comma (xs : Chars) :
    rstrip (xs ++ [',']) = xs ++ [','] := by
  have h2 : pyIsSpace ',' = false := by decide
  simp [rstrip, List.dropWhile_cons, h2]

theorem strip_append_comma_ends (rest : Chars) :
    endsWith (strip (rest ++ [','])) ',' = true := by
  have h2 : pyIsSpace ',' = false := by decide
  rw [strip, rstrip_append_comma, lstrip, dropWhile_append_one h2]
  simp [endsWith]

theorem startsSlashSlash_of_ne {a : Char} (l : Chars) (ha : a ≠ '/') :
    startsSlashSlash (a :: l) = false := by
  unfold startsSlashSlash
  split
  · simp_all
  · rfl

theorem fixCommaStep_cases (line : Chars) :
    fixCommaStep line = line ∨
      (fixCommaStep line = rstrip line ++ [',', '\n'] ∧
        fixCommaStep (rstrip line ++ [',', '\n']) = rstrip line ++ [',', '\n'] ∧
        startsSlashSlash (rstrip line ++ [',', '\n']) = false) := by
  cases h : idMatchRest (rstrip line) with
  | none => left; unfold fixCommaStep; rw [h]
  | some rest =>
    by_cases h1 : (endsWith (strip rest) ',' || endsWith (strip rest) ';') = true
    · left; unfold fixCommaStep; rw [h]; simp only [if_pos h1]
    by_cases h2 : '=' ∈ rest
    · left; unfold fixCommaStep; rw [h]
      simp only [if_neg h1, if_pos h2]
    by_cases h3 : endsWith (rstrip line) ',' = true
    · left; unfold fixCommaStep; rw [h]
      simp only [if_neg h1, if_neg h2, if_pos h3]
    refine Or.inr ⟨?_, ?_, ?_⟩
    · unfold fixCommaStep; rw [h]
      simp only [if_neg h1, if_neg h2, if_neg h3]
    · have happ : idMatchRest (rstrip line ++ [',']) = some (rest ++ [',']) :=
        idMatchRest_append (by decide) h
      unfold fixCommaStep
      rw [rstrip_append_comma_newline, happ]
      simp [strip_append_comma_ends]
    · obtain ⟨a, u, hsu, ha⟩ := idMatchRest_head h
      rw [hsu, List.cons_append]
      exact startsSlashSlash_of_ne _ ha

theorem headerStep_of_not_slash {l : Chars} (i : Nat)
    (h : startsSlashSlash l = false) : headerStep i l = l := by
  simp [headerStep, h]

theorem headerStep_cases (i : Nat) (l : Chars) :
    headerStep i l = l ∨ headerStep i l = canonicalHeaderLine := by
  unfold headerStep
  split
  · split
    · exact Or.inr rfl
    · exact Or.inl rfl
  · exact Or.inl rfl

theorem fixCommaStep_canonical :
    fixCommaStep canonicalHeaderLine = canonicalHeaderLine := by decide

theorem headerStep_canonical (i : Nat) :
    headerStep i canonicalHeaderLine = canonicalHeaderLine := by
  unfold headerStep
  split
  · rw [if_neg]
    simp only [ne_eq, Decidable.not_not]
    decide
  · rfl

theorem fixLine_idem (i : Nat) (l : Chars) :
    fixLine i (fixLine i l) = fixLine i l := by
  rcases fixCommaStep_cases l with hc | ⟨hc, hstab, hslash⟩
  · rcases headerStep_cases i (fixCommaStep l) with hh | hh
    · have hfl : fixLine i l = l := by rw [fixLine, hh, hc]
      rw [hfl, hfl]
    · have hfl : fixLine i l = canonicalHeaderLine := by rw [fixLine, hh]
      rw [hfl, fixLine, fixCommaStep_canonical, headerStep_canonical]
  · have hfl : fixLine i l = rstrip l ++ [',', '\n'] := by
      rw [fixLine, hc, headerStep_of_not_slash i hslash]
    rw [hfl, fixLine, hstab, headerStep_of_not_slash i hslash]

theorem fixLines_idem (i : Nat) (ls : List Chars) :
    fixLines i (fixLines i ls) = fixLines i ls := by
  induction ls generalizing i with
  | nil => rfl
  | cons l ls ih => simp [fixLines, fixLine_idem, ih]

/-- C10: the comma-repair pass of `fix_missing_commas.py` is idempotent.
One application of the per-line transformation (comma fix, then header
fix, with the running line index) is a fixed point of a second
application, both line-by-line and over the whole list of lines of the
file. -/
theorem claim_C10_fix_commas_idempotent :
    (∀ i l, fixLine i (fixLine i l) = fixLine i l) ∧
      ∀ ls, fix_commas (fix_commas ls) = fix_commas ls :=
  ⟨fixLine_idem, fun ls => fixLines_idem 0 ls⟩

end FixCommas

/-!
The structured core. The repository manipulates the build descriptor only
through ad-hoc regex scripts (`src/Tools/*.py`); the parser, object-graph
model, integrity checker, mutation API and canonicalizing serializer that
the specification describes are not present in the source tree, so they
are modelled here from the specification's words.
-/

namespace PBX

/-- Modelled from the spec: the `Value` tagged union of the data model —
`Str(text)`, `Ident(id, optional comment)`, `Dict(ordered key/value
pairs)`, `Array(ordered values)`. The repository has no such type; its
scripts work on raw text. -/
inductive Value where
  | str (s : String)
  | ident (id : String) (comment : Option String)
  | dict (pairs : List (String × Value))
  | arr (elems : List Value)

/-- Modelled from the spec: one `ObjectRecord` of the `objects` table —
`{ id, isa, fields }`, the derived view the Object Graph Builder
produces. -/
structure ObjectRecord where
  id : String
  isa : String
  fields : List (String × Value)

/-- Modelled from the spec: the object graph — the indexed `objects`
table plus the `rootObject` entry (with the comment its `Ident`
carries). -/
structure Graph where
  objects : List ObjectRecord
  rootObject : String
  rootComment : Option String

/-- The identifiers present in the objects table. -/
def Graph.ids (g : Graph) : List String :=
  g.objects.map (·.id)

/-- Whether a value is exactly `Ident(i)` (any comment). -/
def isIdentOf (i : String) : Value → Bool
  | .ident j _ => j = i
  | _ => false

mutual

/-- All identifiers referenced by `Ident` nodes anywhere inside a value:
the graph edges contributed by that value. -/
def identsInValue : Value → List String
  | .str _ => []
  | .ident j _ => [j]
  | .dict ps => identsInPairs ps
  | .arr es => identsInList es

/-- Edge identifiers of every value of a list (an `Array`). -/
def identsInList : List Value → List String
  | [] => []
  | v :: vs => identsInValue v ++ identsInList vs

/-- Edge identifiers of every value of a key/value list (a `Dict` or a
record's fields). -/
def identsInPairs : List (String × Value) → List String
  | [] => []
  | (_, v) :: ps => identsInValue v ++ identsInPairs ps

end

mutual

/-- Modelled from the spec: the second phase of `deleteObject(i)` on one
value — remove any `Array` element or `Dict` pair whose value is
`Ident(i)`, recursively. -/
def scrubValue (i : String) : Value → Value
  | .str s => .str s
  | .ident j c => .ident j c
  | .dict ps => .dict (scrubPairs i ps)
  | .arr es => .arr (scrubList i es)

/-- Scrubbing of the elements of an `Array`. -/
def scrubList (i : String) : List Value → List Value
  | [] => []
  | v :: vs =>
    if isIdentOf i v then scrubList i vs
    else scrubValue i v :: scrubList i vs

/-- Scrubbing of the pairs of a `Dict` (or of a record's fields). -/
def scrubPairs (i : String) : List (String × Value) → List (String × Value)
  | [] => []
  | (k, v) :: ps =>
    if isIdentOf i v then scrubPairs i ps
    else (k, scrubValue i v) :: scrubPairs i ps

end

/-- The `(record, field)` edit reports of `deleteObject`: one per field of
`r` whose value contains `Ident(i)` somewhere (those are exactly the
fields the scrub phase rewrites). -/
def fieldEdits (i : String) (r : ObjectRecord) : List (String × String) :=
  r.fields.filterMap fun kv =>
    if i ∈ identsInValue kv.2 then some (r.id, kv.1) else none

/-- Modelled from the spec: `deleteObject(id)` — remove the record, then
scrub every remaining record's fields recursively, reporting which
`(record, field)` pairs were scrubbed. -/
def deleteObject (g : Graph) (i : String) : Graph × List (String × String) :=
  let remaining := g.objects.filter fun r => r.id ≠ i
  ({ g with
      objects := remaining.map fun r => { r with fields := scrubPairs i r.fields } },
   remaining.flatMap (fieldEdits i))

mutual

theorem scrubValue_clean (i : String) :
    ∀ v : Value, isIdentOf i v = false → i ∉ identsInValue (scrubValue i v)
  | .str s, _ => by simp [scrubValue, identsInValue]
  | .ident j c, hv => by
    simp [isIdentOf] at hv
    simp [scrubValue, identsInValue]
    exact fun h => hv h.symm
  | .dict ps, _ => by
    simp only [scrubValue, identsInValue]
    exact scrubPairs_clean i ps
  | .arr es, _ => by
    simp only [scrubValue, identsInValue]
    exact scrubList_clean i es

theorem scrubList_clean (i : String) :
    ∀ es : List Value, i ∉ identsInList (scrubList i es)
  | [] => by simp [scrubList, identsInList]
  | v :: vs => by
    by_cases hv : isIdentOf i v = true
    · simp only [scrubList, if_pos hv]
      exact scrubList_clean i vs
    · simp only [scrubList, if_neg hv, identsInList, List.mem_append]
      push_neg
      exact ⟨scrubValue_clean i v (by simpa using hv), scrubList_clean i vs⟩

theorem scrubPairs_clean (i : String) :
    ∀ ps : List (String × Value), i ∉ identsInPairs (scrubPairs i ps)
  | [] => by simp [scrubPairs, identsInPairs]
  | (k, v) :: ps => by
    by_cases hv : isIdentOf i v = true
    · simp only [scrubPairs, if_pos hv]
      exact scrubPairs_clean i ps
    · simp only [scrubPairs, if_neg hv, identsInPairs, List.mem_append]
      push_neg
      exact ⟨scrubValue_clean i v (by simpa using hv), scrubPairs_clean i ps⟩

end

/-- C1: `deleteObject(i)` removes the record named `i`, afterwards no
remaining record contains `Ident(i)` anywhere in its fields, and the
reported edits are exactly the `(record, field)` pairs of surviving
records whose field value contained `Ident(i)` somewhere. -/
theorem claim_C1_deleteObject_scrubs (g : Graph) (i : String)
    (hmem : i ∈ g.ids) :
    i ∉ (deleteObject g i).1.ids
      ∧ (∀ r ∈ (deleteObject g i).1.objects, i ∉ identsInPairs r.fields)
      ∧ (∀ rid k, (rid, k) ∈ (deleteObject g i).2 ↔
          ∃ r ∈ g.objects, r.id = rid ∧ rid ≠ i ∧
            ∃ v, (k, v) ∈ r.fields ∧ i ∈ identsInValue v) := by
  refine ⟨?_, ?_, ?_⟩
  · intro hmem'
    simp only [deleteObject, Graph.ids, List.map_map, List.mem_map,
      List.mem_filter, Function.comp] at hmem'
    obtain ⟨r, ⟨hrg, hne⟩, hid⟩ := hmem'
    simp at hne hid
    exact hne hid
  · rintro r hr
    simp only [deleteObject, List.mem_map] at hr
    obtain ⟨r', _, rfl⟩ := hr
    exact scrubPairs_clean i r'.fields
  · intro rid k
    simp only [deleteObject, List.mem_flatMap, List.mem_filter, fieldEdits,
      List.mem_filterMap]
    constructor
    · rintro ⟨r, ⟨hrg, hrne⟩, ⟨⟨k', v⟩, hkv, hsome⟩⟩
      by_cases hin : i ∈ identsInValue v
      · rw [if_pos hin] at hsome
        simp only [Option.some.injEq, Prod.mk.injEq] at hsome
        obtain ⟨h1, h2⟩ := hsome
        subst h2
        subst h1
        refine ⟨r, hrg, rfl, ?_, v, hkv, hin⟩
        simpa using hrne
      · rw [if_neg hin] at hsome; cases hsome
    · rintro ⟨r, hrg, hid, hne, v, hkv, hin⟩
      refine ⟨r, ⟨hrg, by simpa [hid] using hne⟩, ⟨k, v⟩, hkv, ?_⟩
      rw [if_pos hin, hid]

/-- Concrete instance of C1: a file-reference record and a build-file
record whose `fileRef` field points at it; deleting the file reference
scrubs the build file. -/
def recFileRef : ObjectRecord :=
  { id := "A139CF9EFAAE92F66141FC20", isa := "PBXFileReference",
    fields := [("path", .str "Ghost.swift")] }

def recBuildFile : ObjectRecord :=
  { id := "C9FBC3A09F424FB4B86AA3BD", isa := "PBXBuildFile",
    fields := [("fileRef", .ident "A139CF9EFAAE92F66141FC20" (some "Ghost.swift"))] }

def gDelete : Graph :=
  { objects := [recFileRef, recBuildFile],
    rootObject := "C9FBC3A09F424FB4B86AA3BD", rootComment := none }

theorem claim_C1_witness :
    "A139CF9EFAAE92F66141FC20" ∈ gDelete.ids
      ∧ ("A139CF9EFAAE92F66141FC20" ∉
            (deleteObject gDelete "A139CF9EFAAE92F66141FC20").1.ids
          ∧ (∀ r ∈ (deleteObject gDelete "A139CF9EFAAE92F66141FC20").1.objects,
              "A139CF9EFAAE92F66141FC20" ∉ identsInPairs r.fields)
          ∧ (∀ rid k,
              (rid, k) ∈ (deleteObject gDelete "A139CF9EFAAE92F66141FC20").2 ↔
                ∃ r ∈ gDelete.objects, r.id = rid
                  ∧ rid ≠ "A139CF9EFAAE92F66141FC20"
                  ∧ ∃ v, (k, v) ∈ r.fields
                      ∧ "A139CF9EFAAE92F66141FC20" ∈ identsInValue v)) :=
  ⟨by decide,
   claim_C1_deleteObject_scrubs gDelete "A139CF9EFAAE92F66141FC20" (by decide)⟩

/-- The 24-hexadecimal-character identifier shape of the format. -/
def isHexChar (c : Char) : Bool :=
  ('0' ≤ c && c ≤ '9') || ('a' ≤ c && c ≤ 'f') || ('A' ≤ c && c ≤ 'F')

/-- Whether a string has the 24-hex-character identifier shape. -/
def isHex24 (s : String) : Bool :=
  s.length = 24 && s.data.all isHexChar

/-- Modelled from the spec: the `Violation` variants the Integrity
Checker reports (the serialized-section variant is omitted: it concerns
the textual form, not the graph). -/
inductive Violation where
  | duplicateId (id : String)
  | danglingReference (fromId : String) (field : String) (toId : String)
  | malformedId (value : String)
  | orphanObject (id : String)
  deriving DecidableEq, Repr

/-- Whether a violation blocks a mutation commit: everything but the
informational orphan flag. -/
def Violation.blocking : Violation → Bool
  | .orphanObject _ => false
  | _ => true

/-- The `DuplicateId` pass of the checker: one violation per identifier
that keys more than one record. -/
def duplicateViolations (g : Graph) : List Violation :=
  g.ids.dedup.filterMap fun i =>
    if 2 ≤ g.ids.count i then some (.duplicateId i) else none

/-- The `MalformedId` pass: one violation per identifier without the
24-hex shape — the record keys, and the `rootObject` identifier (the
spec's invariant 3 covers every identifier). -/
def malformedViolations (g : Graph) : List Violation :=
  (g.objects.filterMap fun r =>
    if isHex24 r.id then none else some (.malformedId r.id))
    ++ (if isHex24 g.rootObject then [] else [.malformedId g.rootObject])

/-- The `DanglingReference` pass on one record: one violation per `Ident`
occurrence in a field whose target is not a key of the objects table —
membership in the table is the only criterion. -/
def recordDangling (g : Graph) (r : ObjectRecord) : List Violation :=
  r.fields.flatMap fun kv =>
    (identsInValue kv.2).filterMap fun j =>
      if j ∈ g.ids then none else some (.danglingReference r.id kv.1 j)

/-- The `DanglingReference` pass over the whole graph. -/
def danglingViolations (g : Graph) : List Violation :=
  g.objects.flatMap (recordDangling g)

/-- Whether some other record references `rid`. -/
def hasIncomingEdge (g : Graph) (rid : String) : Bool :=
  g.objects.any fun o => o.id ≠ rid && rid ∈ identsInPairs o.fields

/-- The informational `OrphanObject` pass: records without an inbound
edge from any other record. -/
def orphanViolations (g : Graph) : List Violation :=
  g.objects.filterMap fun r =>
    if hasIncomingEdge g r.id then none else some (.orphanObject r.id)

/-- Modelled from the spec: the Integrity Checker — a pure, total
function from a graph to the ordered list of all violations. -/
def check (g : Graph) : List Violation :=
  duplicateViolations g ++ malformedViolations g
    ++ danglingViolations g ++ orphanViolations g

/-- The blocking subset of the checker's report. -/
def blockingViolations (g : Graph) : List Violation :=
  (check g).filter (·.blocking)

/-- What it means, directly over the graph, for one violation to be
present: the semantic counterpart each checker pass is screened
against. -/
def violationHolds (g : Graph) : Violation → Prop
  | .duplicateId i => 2 ≤ g.ids.count i
  | .danglingReference rid k j =>
      (∃ r ∈ g.objects, r.id = rid ∧ ∃ v, (k, v) ∈ r.fields ∧ j ∈ identsInValue v)
        ∧ j ∉ g.ids
  | .malformedId s =>
      ((∃ r ∈ g.objects, r.id = s) ∨ g.rootObject = s) ∧ isHex24 s = false
  | .orphanObject rid =>
      (∃ r ∈ g.objects, r.id = rid)
        ∧ ∀ o ∈ g.objects, o.id ≠ rid → rid ∉ identsInPairs o.fields

theorem mem_duplicateViolations_iff (g : Graph) (v : Violation) :
    v ∈ duplicateViolations g ↔
      ∃ i, v = .duplicateId i ∧ 2 ≤ g.ids.count i := by
  simp only [duplicateViolations, List.mem_filterMap]
  constructor
  · rintro ⟨a, ha, hsome⟩
    split at hsome
    · cases hsome
      exact ⟨a, rfl, by assumption⟩
    · cases hsome
  · rintro ⟨i, rfl, hcount⟩
    have hi : i ∈ g.ids := by
      by_contra hni
      rw [List.count_eq_zero_of_not_mem hni] at hcount
      omega
    exact ⟨i, List.mem_dedup.2 hi, by rw [if_pos hcount]⟩

theorem mem_malformedViolations_iff (g : Graph) (v : Violation) :
    v ∈ malformedViolations g ↔
      ∃ s, v = .malformedId s ∧ ((∃ r ∈ g.objects, r.id = s) ∨ g.rootObject = s)
        ∧ isHex24 s = false := by
  simp only [malformedViolations, List.mem_append, List.mem_filterMap]
  constructor
  · rintro (⟨r, hr, hsome⟩ | hroot)
    · split at hsome
      · cases hsome
      · cases hsome
        exact ⟨r.id, rfl, Or.inl ⟨r, hr, rfl⟩,
          by simpa using ‹¬isHex24 r.id = true›⟩
    · split at hroot
      · cases hroot
      · rw [List.mem_singleton] at hroot
        subst hroot
        exact ⟨g.rootObject, rfl, Or.inr rfl,
          by simpa using ‹¬isHex24 g.rootObject = true›⟩
  · rintro ⟨s, rfl, ⟨r, hr, rfl⟩ | rfl, hhex⟩
    · exact Or.inl ⟨r, hr, by rw [if_neg (by simp [hhex])]⟩
    · exact Or.inr (by rw [if_neg (by simp [hhex])]; exact List.mem_singleton.2 rfl)

theorem mem_danglingViolations_iff (g : Graph) (v : Violation) :
    v ∈ danglingViolations g ↔
      ∃ rid k j, v = .danglingReference rid k j
        ∧ (∃ r ∈ g.objects, r.id = rid ∧ ∃ w, (k, w) ∈ r.fields ∧ j ∈ identsInValue w)
        ∧ j ∉ g.ids := by
  simp only [danglingViolations, recordDangling, List.mem_flatMap,
    List.mem_filterMap]
  constructor
  · rintro ⟨r, hr, ⟨k, w⟩, hkw, j, hj, hsome⟩
    split at hsome
    · cases hsome
    · cases hsome
      exact ⟨r.id, k, j, rfl, ⟨r, hr, rfl, w, hkw, hj⟩, by assumption⟩
  · rintro ⟨rid, k, j, rfl, ⟨r, hr, rfl, w, hkw, hj⟩, hnid⟩
    exact ⟨r, hr, ⟨k, w⟩, hkw, j, hj, by rw [if_neg hnid]⟩

theorem mem_orphanViolations_iff (g : Graph) (v : Violation) :
    v ∈ orphanViolations g ↔
      ∃ rid, v = .orphanObject rid ∧ (∃ r ∈ g.objects, r.id = rid)
        ∧ ∀ o ∈ g.objects, o.id ≠ rid → rid ∉ identsInPairs o.fields := by
  simp only [orphanViolations, List.mem_filterMap]
  constructor
  · rintro ⟨r, hr, hsome⟩
    split at hsome
    · cases hsome
    · cases hsome
      refine ⟨r.id, rfl, ⟨r, hr, rfl⟩, ?_⟩
      intro o ho hne hmem
      have : hasIncomingEdge g r.id = true := by
        simp only [hasIncomingEdge, List.any_eq_true]
        exact ⟨o, ho, by simp [hne, hmem]⟩
      simp_all
  · rintro ⟨rid, rfl, ⟨r, hr, rfl⟩, hall⟩
    refine ⟨r, hr, ?_⟩
    rw [if_neg ?_]
    simp only [hasIncomingEdge, List.any_eq_true]
    rintro ⟨o, ho, hcond⟩
    simp only [Bool.and_eq_true, decide_eq_true_eq] at hcond
    exact hall o ho hcond.1 (by simpa using hcond.2)

/-- C8: the Integrity Checker is a pure, total function to an ordered
violation list, and its report is sound and complete — a violation is in
`check g` exactly when it is present in the graph, so none is dropped,
truncated, or reported only first. -/
theorem claim_C8_checker_sound_complete :
    ∀ (g : Graph) (v : Violation), v ∈ check g ↔ violationHolds g v := by
  intro g v
  simp only [check, List.mem_append, mem_duplicateViolations_iff,
    mem_malformedViolations_iff, mem_danglingViolations_iff,
    mem_orphanViolations_iff]
  cases v with
  | duplicateId i => simp [violationHolds]
  | danglingReference rid k j =>
    simp only [violationHolds, Violation.danglingReference.injEq,
      Violation.duplicateId.injEq, reduceCtorEq, false_and, exists_false,
      and_false, false_or, or_false]
    constructor
    · rintro ⟨a, b, c, ⟨h1, h2, h3⟩, h4, h5⟩
      subst h1; subst h2; subst h3
      exact ⟨h4, h5⟩
    · rintro ⟨h1, h2⟩
      exact ⟨rid, k, j, ⟨rfl, rfl, rfl⟩, h1, h2⟩
  | malformedId s => simp [violationHolds]
  | orphanObject rid => simp [violationHolds]

/-- Modelled from the spec: the well-formedness invariants of a document
between mutations — unique record ids, unique keys within a record's
fields, every edge resolving to an existing record, and 24-hex-shaped
identifiers. -/
def wellFormed (g : Graph) : Prop :=
  g.ids.Nodup
    ∧ (∀ r ∈ g.objects, (r.fields.map Prod.fst).Nodup)
    ∧ (∀ r ∈ g.objects, ∀ j ∈ identsInPairs r.fields, j ∈ g.ids)
    ∧ (∀ i ∈ g.ids, isHex24 i = true)

instance (g : Graph) : Decidable (wellFormed g) := by
  unfold wellFormed
  infer_instance

/-- Appending a reference `Ident(x)` into a value, turning a non-array
value into a two-element array. -/
def pushIdent (x : String) : Value → Value
  | .arr es => .arr (es ++ [.ident x none])
  | v => .arr [v, .ident x none]

/-- Appending a reference into the named field of a record's fields,
creating the field as a fresh array when absent. -/
def injectFields (f x : String) (fields : List (String × Value)) :
    List (String × Value) :=
  if f ∈ fields.map Prod.fst then
    fields.map fun kv => if kv.1 = f then (kv.1, pushIdent x kv.2) else kv
  else fields ++ [(f, .arr [.ident x none])]

/-- Injecting a single raw reference `Ident(x)` into field `f` of record
`c`, with no validation — the corruption the source scripts produce. -/
def injectRef (g : Graph) (c f x : String) : Graph :=
  { g with
    objects := g.objects.map fun r =>
      if r.id = c then { r with fields := injectFields f x r.fields } else r }

theorem flatMap_nil_of {α β : Type} (l : List α) (F : α → List β)
    (h : ∀ a ∈ l, F a = []) : l.flatMap F = [] := by
  induction l with
  | nil => rfl
  | cons a l ih =>
    rw [List.flatMap_cons, h a (List.mem_cons_self a l), List.nil_append]
    exact ih fun b hb => h b (List.mem_cons_of_mem a hb)

theorem filterMap_nil_of {α β : Type} (l : List α) (F : α → Option β)
    (h : ∀ a ∈ l, F a = none) : l.filterMap F = [] := by
  induction l with
  | nil => rfl
  | cons a l ih =>
    rw [List.filterMap_cons, h a (List.mem_cons_self a l)]
    exact ih fun b hb => h b (List.mem_cons_of_mem a hb)

theorem flatMap_single_key {α β : Type} (key : α → String) (c : String)
    (out : List β) (F : α → List β) :
    ∀ l : List α, (l.map key).Nodup → c ∈ l.map key →
      (∀ a ∈ l, F a = if key a = c then out else []) →
      l.flatMap F = out := by
  intro l
  induction l with
  | nil => simp
  | cons a l ih =>
    intro hnd hc hF
    simp only [List.map_cons, List.nodup_cons] at hnd
    rcases hnd with ⟨hna, hnd⟩
    by_cases hk : key a = c
    · have hFa : F a = out := by
        rw [hF a (List.mem_cons_self a l), if_pos hk]
      have hrest : l.flatMap F = [] := by
        apply flatMap_nil_of
        intro b hb
        rw [hF b (List.mem_cons_of_mem a hb), if_neg]
        intro hbc
        apply hna
        rw [hk, ← hbc]
        exact List.mem_map_of_mem key hb
      rw [List.flatMap_cons, hFa, hrest, List.append_nil]
    · have hFa : F a = [] := by
        rw [hF a (List.mem_cons_self a l), if_neg hk]
      have hc2 : c ∈ l.map key := by
        rcases List.mem_cons.1 hc with h | h
        · exact absurd h.symm hk
        · exact h
      rw [List.flatMap_cons, hFa, List.nil_append]
      exact ih hnd hc2 fun b hb => hF b (List.mem_cons_of_mem a hb)

theorem identsInList_append (a b : List Value) :
    identsInList (a ++ b) = identsInList a ++ identsInList b := by
  induction a with
  | nil => simp [identsInList]
  | cons v vs ih => simp [identsInList, ih]

theorem identsIn_pushIdent (x : String) (v : Value) :
    identsInValue (pushIdent x v) = identsInValue v ++ [x] := by
  cases v with
  | arr es =>
    simp [pushIdent, identsInValue, identsInList_append, identsInList]
  | str s => simp [pushIdent, identsInValue, identsInList]
  | ident j c => simp [pushIdent, identsInValue, identsInList]
  | dict ps => simp [pushIdent, identsInValue, identsInList]

theorem mem_identsInPairs_of {j : String} {k : String} {v : Value} :
    ∀ {ps : List (String × Value)}, (k, v) ∈ ps → j ∈ identsInValue v →
      j ∈ identsInPairs ps
  | (k2, v2) :: ps, hmem, hj => by
    rcases List.mem_cons.1 hmem with h | h
    · cases h
      exact List.mem_append.2 (Or.inl hj)
    · exact List.mem_append.2 (Or.inr (mem_identsInPairs_of h hj))

theorem recordDangling_eq_nil {g : Graph} {r : ObjectRecord}
    (h : ∀ j ∈ identsInPairs r.fields, j ∈ g.ids) :
    recordDangling g r = [] := by
  apply flatMap_nil_of
  intro kv hkv
  apply filterMap_nil_of
  intro j hj
  rw [if_pos (h j (mem_identsInPairs_of hkv hj))]

theorem ids_injectRef (g : Graph) (c f x : String) :
    (injectRef g c f x).ids = g.ids := by
  simp only [injectRef, Graph.ids, List.map_map]
  apply List.map_congr_left
  intro r _
  by_cases h : r.id = c <;> simp [h]

theorem recordDangling_inject {g2 : Graph} {r : ObjectRecord} {f x : String}
    (hres : ∀ j ∈ identsInPairs r.fields, j ∈ g2.ids)
    (hx : x ∉ g2.ids)
    (hkeys : (r.fields.map Prod.fst).Nodup) :
    recordDangling g2 { r with fields := injectFields f x r.fields } =
      [.danglingReference r.id f x] := by
  unfold recordDangling injectFields
  by_cases hf : f ∈ r.fields.map Prod.fst
  · rw [if_pos hf]
    simp only
    rw [List.flatMap_map]
    apply flatMap_single_key Prod.fst f _ _ r.fields hkeys hf
    intro kv hkv
    by_cases hk : kv.1 = f
    · rw [if_pos hk]
      simp only [Function.comp, if_pos hk, identsIn_pushIdent,
        List.filterMap_append]
      rw [filterMap_nil_of _ _ fun j hj => by
        rw [if_pos (hres j (mem_identsInPairs_of
          (show (kv.1, kv.2) ∈ r.fields by simpa using hkv) hj))]]
      simp only [List.filterMap_cons, List.filterMap_nil]
      rw [if_neg hx, hk]
      rfl
    · rw [if_neg hk]
      simp only [Function.comp, if_neg hk]
      apply filterMap_nil_of
      intro j hj
      rw [if_pos (hres j (mem_identsInPairs_of
        (show (kv.1, kv.2) ∈ r.fields by simpa using hkv) hj))]
  · rw [if_neg hf]
    simp only [List.flatMap_append]
    rw [flatMap_nil_of _ _ fun kv hkv => filterMap_nil_of _ _ fun j hj => by
      rw [if_pos (hres j (mem_identsInPairs_of
        (show (kv.1, kv.2) ∈ r.fields by simpa using hkv) hj))]]
    simp only [List.nil_append, List.flatMap_cons, List.flatMap_nil,
      identsInValue, identsInList, List.append_nil, List.filterMap_cons,
      List.filterMap_nil]
    rw [if_neg hx]

theorem dangling_pass_of_inject (g : Graph) (c f x : String)
    (hwf : wellFormed g) (hc : c ∈ g.ids) (hx : x ∉ g.ids) :
    danglingViolations (injectRef g c f x) =
      [.danglingReference c f x] := by
  obtain ⟨hnd, hkeys, hres, _⟩ := hwf
  have hids : (injectRef g c f x).ids = g.ids := ids_injectRef g c f x
  unfold danglingViolations
  have hobj : (injectRef g c f x).objects = g.objects.map fun r =>
      if r.id = c then { r with fields := injectFields f x r.fields } else r := rfl
  rw [hobj, List.flatMap_map]
  apply flatMap_single_key (fun r : ObjectRecord => r.id) c _ _ g.objects hnd hc
  intro r hr
  by_cases hk : r.id = c
  · rw [if_pos hk]
    simp only [Function.comp, if_pos hk]
    rw [show Violation.danglingReference c f x
        = Violation.danglingReference r.id f x from by rw [hk]]
    apply recordDangling_inject
    · intro j hj
      rw [hids]
      exact hres r hr j hj
    · rw [hids]; exact hx
    · exact hkeys r hr
  · rw [if_neg hk]
    simp only [Function.comp, if_neg hk]
    apply recordDangling_eq_nil
    intro j hj
    rw [hids]
    exact hres r hr j hj

/-- Whether a violation is of the `DanglingReference` kind. -/
def isDanglingViolation : Violation → Bool
  | .danglingReference _ _ _ => true
  | _ => false

theorem filter_nil_of {α : Type} (p : α → Bool) (l : List α)
    (h : ∀ a ∈ l, p a = false) : l.filter p = [] := by
  induction l with
  | nil => rfl
  | cons a l ih =>
    rw [List.filter_cons, h a (List.mem_cons_self a l)]
    exact ih fun b hb => h b (List.mem_cons_of_mem a hb)

/-- C7: on a well-formed graph (whose edges, in particular, all resolve),
injecting one reference to an id absent from the objects table and
re-running the Integrity Checker yields exactly one `DanglingReference`
violation, and it names the injected nonexistent target; danglingness is
membership in the objects table and nothing else. -/
theorem claim_C7_dangling_detection (g : Graph) (c f x : String)
    (hwf : wellFormed g) (hc : c ∈ g.ids) (hx : x ∉ g.ids) :
    danglingViolations (injectRef g c f x) = [.danglingReference c f x]
      ∧ (check (injectRef g c f x)).filter isDanglingViolation =
          [.danglingReference c f x] := by
  have hpass := dangling_pass_of_inject g c f x hwf hc hx
  refine ⟨hpass, ?_⟩
  unfold check
  simp only [List.filter_append]
  have hdup : (duplicateViolations (injectRef g c f x)).filter
      isDanglingViolation = [] :=
    filter_nil_of _ _ fun v hv => by
      obtain ⟨i, rfl, _⟩ := (mem_duplicateViolations_iff _ v).1 hv
      rfl
  have hmal : (malformedViolations (injectRef g c f x)).filter
      isDanglingViolation = [] :=
    filter_nil_of _ _ fun v hv => by
      obtain ⟨s, rfl, _⟩ := (mem_malformedViolations_iff _ v).1 hv
      rfl
  have horp : (orphanViolations (injectRef g c f x)).filter
      isDanglingViolation = [] :=
    filter_nil_of _ _ fun v hv => by
      obtain ⟨i, rfl, _⟩ := (mem_orphanViolations_iff _ v).1 hv
      rfl
  have hdang : (danglingViolations (injectRef g c f x)).filter
      isDanglingViolation = [.danglingReference c f x] := by
    rw [hpass]
    rfl
  rw [hdup, hmal, horp, hdang]
  rfl

/-- Concrete instance for C7: one `PBXNativeTarget` record with an empty
`files` array, into which a reference to an absent id is injected. -/
def gInject : Graph :=
  { objects := [{ id := "6B1A2B242C0D1E8F00123456", isa := "PBXNativeTarget",
                  fields := [("files", .arr [])] }],
    rootObject := "6B1A2B242C0D1E8F00123456", rootComment := none }

theorem claim_C7_witness :
    (wellFormed gInject
        ∧ "6B1A2B242C0D1E8F00123456" ∈ gInject.ids
        ∧ "C9FBC3A09F424FB4B86AA3BD" ∉ gInject.ids)
      ∧ (danglingViolations
            (injectRef gInject "6B1A2B242C0D1E8F00123456" "files"
              "C9FBC3A09F424FB4B86AA3BD") =
          [.danglingReference "6B1A2B242C0D1E8F00123456" "files"
            "C9FBC3A09F424FB4B86AA3BD"]
        ∧ (check (injectRef gInject "6B1A2B242C0D1E8F00123456" "files"
              "C9FBC3A09F424FB4B86AA3BD")).filter isDanglingViolation =
          [.danglingReference "6B1A2B242C0D1E8F00123456" "files"
            "C9FBC3A09F424FB4B86AA3BD"]) :=
  ⟨⟨by decide, by decide, by decide⟩,
   claim_C7_dangling_detection gInject "6B1A2B242C0D1E8F00123456" "files"
     "C9FBC3A09F424FB4B86AA3BD" (by decide) (by decide) (by decide)⟩

/-!
Tokenizer and canonical renderer, modelled from the spec (§4.1): raw
tokens for punctuation, quoted strings with escape handling, barewords,
and comments; a comment is attached to the immediately preceding bareword
or string as an annotation. Layout whitespace is insignificant; the
canonical renderer emits one token per line.
-/

/-- Modelled from the spec: the raw token stream of the Tokenizer. -/
inductive RawToken where
  | lbrace | rbrace | lparen | rparen | equals | semi | comma
  | str (s : String)
  | bare (s : String)
  | comment (s : String)
  deriving DecidableEq, Repr

/-- Modelled from the spec: tokens after comment attachment — a comment
is an annotation on the preceding bareword or string, not a standalone
node. -/
inductive Token where
  | lbrace | rbrace | lparen | rparen | equals | semi | comma
  | str (s : String) (cmt : Option String)
  | bare (s : String) (cmt : Option String)
  deriving DecidableEq, Repr

/-- Modelled from the spec: parse-time failures, all fatal. -/
inductive ParseError where
  | missingHeader
  | unexpectedToken
  | unterminatedString
  | unterminatedComment
  | badStructure
  | duplicateIdentifier (id : String)
  deriving DecidableEq, Repr

/-- The characters a bareword may consist of. -/
def bareChar (c : Char) : Bool :=
  c.isAlphanum || c = '_' || c = '.'

/-- Layout whitespace. -/
def isWsChar (c : Char) : Bool :=
  c = ' ' || c = '\t' || c = '\n' || c = '\r'

/-- The body of a quoted string: consume up to the closing quote,
unescaping backslash pairs; `none` on an unterminated string. -/
def readStr : List Char → Option (List Char × List Char)
  | [] => none
  | c :: rest =>
    if c = '"' then some ([], rest)
    else if c = '\\' then
      match rest with
      | [] => none
      | d :: rest2 => (readStr rest2).map fun p => (d :: p.1, p.2)
    else (readStr rest).map fun p => (c :: p.1, p.2)

/-- The body of a comment: consume up to the first closing digraph;
`none` on an unterminated comment. -/
def readCmt : List Char → Option (List Char × List Char)
  | [] => none
  | c :: rest =>
    if c = '*' then
      match rest with
      | '/' :: rest2 => some ([], rest2)
      | _ => (readCmt rest).map fun p => (c :: p.1, p.2)
    else (readCmt rest).map fun p => (c :: p.1, p.2)

theorem readStr_length :
    ∀ (l : List Char) {s r : List Char}, readStr l = some (s, r) →
      r.length < l.length
  | [], s, r, h => by simp [readStr] at h
  | c :: rest, s, r, h => by
    rw [readStr.eq_def] at h
    simp only [] at h
    split at h
    · cases h
      simp
    · split at h
      · split at h
        · cases h
        · simp only [Option.map_eq_some'] at h
          obtain ⟨⟨s1, r1⟩, hrec, heq⟩ := h
          cases heq
          have := readStr_length _ hrec
          simp at this ⊢
          omega
      · simp only [Option.map_eq_some'] at h
        obtain ⟨⟨s1, r1⟩, hrec, heq⟩ := h
        cases heq
        have := readStr_length _ hrec
        simp at this ⊢
        omega

theorem readCmt_length :
    ∀ (l : List Char) {s r : List Char}, readCmt l = some (s, r) →
      r.length < l.length
  | [], s, r, h => by simp [readCmt] at h
  | c :: rest, s, r, h => by
    rw [readCmt.eq_def] at h
    simp only [] at h
    split at h
    · split at h
      · cases h
        simp
        omega
      · simp only [Option.map_eq_some'] at h
        obtain ⟨⟨s1, r1⟩, hrec, heq⟩ := h
        cases heq
        have := readCmt_length _ hrec
        simp at this ⊢
        omega
    · simp only [Option.map_eq_some'] at h
      obtain ⟨⟨s1, r1⟩, hrec, heq⟩ := h
      cases heq
      have := readCmt_length _ hrec
      simp at this ⊢
      omega

theorem dropWhile_length_le (p : Char → Bool) (l : List Char) :
    (l.dropWhile p).length ≤ l.length := by
  induction l with
  | nil => simp
  | cons c cs ih =>
    rw [List.dropWhile_cons]
    split
    · simp only [List.length_cons]
      omega
    · simp

/-- Modelled from the spec: the Tokenizer — raw bytes to a raw token
stream; whitespace is skipped, strings are unescaped, an unterminated
string or comment and any unexpected byte are fatal. The fuel argument
only bounds the number of steps; every step consumes at least one
character, so `tokenizeRaw` supplies the input length as fuel. -/
def tokBranch (recur : List Char → Except ParseError (List RawToken))
    (c : Char) (rest : List Char) : Except ParseError (List RawToken) :=
  if isWsChar c then recur rest
  else if c = '\x7b' then (recur rest).map (.lbrace :: ·)
  else if c = '\x7d' then (recur rest).map (.rbrace :: ·)
  else if c = '(' then (recur rest).map (.lparen :: ·)
  else if c = ')' then (recur rest).map (.rparen :: ·)
  else if c = '=' then (recur rest).map (.equals :: ·)
  else if c = ';' then (recur rest).map (.semi :: ·)
  else if c = ',' then (recur rest).map (.comma :: ·)
  else if c = '"' then
    match readStr rest with
    | some p => (recur p.2).map (.str (String.mk p.1) :: ·)
    | none => .error .unterminatedString
  else if c = '/' then
    match rest with
    | '*' :: rest2 =>
      match readCmt rest2 with
      | some p => (recur p.2).map (.comment (String.mk p.1) :: ·)
      | none => .error .unterminatedComment
    | _ => .error .unexpectedToken
  else if bareChar c then
    (recur (rest.dropWhile bareChar)).map
      (.bare (String.mk (c :: rest.takeWhile bareChar)) :: ·)
  else .error .unexpectedToken

/-- The stepping loop of the Tokenizer, bounded by fuel. -/
def tokenizeF : Nat → List Char → Except ParseError (List RawToken)
  | 0, [] => .ok []
  | 0, _ :: _ => .error .badStructure
  | _ + 1, [] => .ok []
  | fuel + 1, c :: rest => tokBranch (fun l => tokenizeF fuel l) c rest

/-- The Tokenizer entry point. -/
def tokenizeRaw (cs : List Char) : Except ParseError (List RawToken) :=
  tokenizeF cs.length cs

/-- Modelled from the spec: comment attachment — a comment token becomes
the annotation of the immediately preceding bareword or string; a comment
in any other position is insignificant trivia and is dropped. -/
def attach : List RawToken → List Token
  | [] => []
  | .bare s :: .comment c :: ts => .bare s (some c) :: attach ts
  | .str s :: .comment c :: ts => .str s (some c) :: attach ts
  | .bare s :: ts => .bare s none :: attach ts
  | .str s :: ts => .str s none :: attach ts
  | .comment _ :: ts => attach ts
  | .lbrace :: ts => .lbrace :: attach ts
  | .rbrace :: ts => .rbrace :: attach ts
  | .lparen :: ts => .lparen :: attach ts
  | .rparen :: ts => .rparen :: attach ts
  | .equals :: ts => .equals :: attach ts
  | .semi :: ts => .semi :: attach ts
  | .comma :: ts => .comma :: attach ts

/-- Escaping of string bodies for quoting: backslash before a quote or a
backslash. -/
def escapeChars : List Char → List Char
  | [] => []
  | c :: cs =>
    if c = '"' || c = '\\' then '\\' :: c :: escapeChars cs
    else c :: escapeChars cs

/-- The canonical rendering of one raw token. -/
def renderRaw : RawToken → List Char
  | .lbrace => ['\x7b']
  | .rbrace => ['\x7d']
  | .lparen => ['(']
  | .rparen => [')']
  | .equals => ['=']
  | .semi => [';']
  | .comma => [',']
  | .str s => '"' :: escapeChars s.data ++ ['"']
  | .bare s => s.data
  | .comment s => '/' :: '*' :: s.data ++ ['*', '/']

/-- The raw expansion of an attached token. -/
def rawOf : Token → List RawToken
  | .lbrace => [.lbrace]
  | .rbrace => [.rbrace]
  | .lparen => [.lparen]
  | .rparen => [.rparen]
  | .equals => [.equals]
  | .semi => [.semi]
  | .comma => [.comma]
  | .str s none => [.str s]
  | .str s (some c) => [.str s, .comment c]
  | .bare s none => [.bare s]
  | .bare s (some c) => [.bare s, .comment c]

/-- The canonical rendering of a raw token stream: one token per line. -/
def renderRawTokens (ts : List RawToken) : List Char :=
  ts.flatMap fun t => renderRaw t ++ ['\n']

/-- The canonical rendering of an attached token stream. -/
def renderTokens (ts : List Token) : List Char :=
  renderRawTokens (ts.flatMap rawOf)

/-- Consuming one expected punctuation token. -/
def expectTok (t : Token) : List Token → Except ParseError (List Token)
  | t2 :: rest => if t2 = t then .ok rest else .error .unexpectedToken
  | [] => .error .unexpectedToken

/-- A dictionary key: a bareword or a string, its annotation ignored. -/
def parseKey : List Token → Except ParseError (String × List Token)
  | .bare s _ :: rest => .ok (s, rest)
  | .str s _ :: rest => .ok (s, rest)
  | _ => .error .unexpectedToken

/-- The branch body of the value parser, over callbacks for the two
sub-parsers. -/
def parseValueBody
    (pPairs : List Token → Except ParseError (List (String × Value) × List Token))
    (pElems : List Token → Except ParseError (List Value × List Token))
    (ts : List Token) : Except ParseError (Value × List Token) :=
  match ts with
  | .lbrace :: rest =>
    match pPairs rest with
    | .error e => .error e
    | .ok pr => .ok (.dict pr.1, pr.2)
  | .lparen :: rest =>
    match pElems rest with
    | .error e => .error e
    | .ok er => .ok (.arr er.1, er.2)
  | .bare s cmt :: rest =>
      if isHex24 s then .ok (.ident s cmt, rest) else .ok (.str s, rest)
  | .str s _ :: rest => .ok (.str s, rest)
  | _ => .error .unexpectedToken

/-- The branch body of the pair-list parser. -/
def parsePairsBody
    (pValue : List Token → Except ParseError (Value × List Token))
    (pPairs : List Token → Except ParseError (List (String × Value) × List Token))
    (ts : List Token) :
    Except ParseError (List (String × Value) × List Token) :=
  match ts with
  | [] => .error .unexpectedToken
  | t :: rest =>
    if t = .rbrace then .ok ([], rest)
    else
      match parseKey (t :: rest) with
      | .error e => .error e
      | .ok kr =>
        match expectTok .equals kr.2 with
        | .error e => .error e
        | .ok rest2 =>
          match pValue rest2 with
          | .error e => .error e
          | .ok vr =>
            match expectTok .semi vr.2 with
            | .error e => .error e
            | .ok rest4 =>
              match pPairs rest4 with
              | .error e => .error e
              | .ok pr => .ok ((kr.1, vr.1) :: pr.1, pr.2)

/-- The branch body of the element-list parser. -/
def parseElemsBody
    (pValue : List Token → Except ParseError (Value × List Token))
    (pElems : List Token → Except ParseError (List Value × List Token))
    (ts : List Token) : Except ParseError (List Value × List Token) :=
  match ts with
  | [] => .error .unexpectedToken
  | t :: rest =>
    if t = .rparen then .ok ([], rest)
    else
      match pValue (t :: rest) with
      | .error e => .error e
      | .ok vr =>
        match expectTok .comma vr.2 with
        | .error e => .error e
        | .ok rest2 =>
          match pElems rest2 with
          | .error e => .error e
          | .ok er => .ok (vr.1 :: er.1, er.2)

mutual

/-- Modelled from the spec: the recursive-descent value parser.
An identifier-shaped bareword becomes `Ident` (with its attached comment),
any other scalar becomes `Str`; braces open a `Dict`, parentheses an
`Array`. The fuel argument only bounds recursion depth; `parse` supplies
more than any token stream can consume. -/
def parseValue : Nat → List Token → Except ParseError (Value × List Token)
  | 0, _ => .error .badStructure
  | fuel + 1, ts =>
    parseValueBody (fun l => parsePairs fuel l) (fun l => parseElems fuel l) ts

/-- `Dict` bodies: `key = value ;` pairs up to the closing brace. -/
def parsePairs : Nat → List Token →
    Except ParseError (List (String × Value) × List Token)
  | 0, _ => .error .badStructure
  | fuel + 1, ts =>
    parsePairsBody (fun l => parseValue fuel l) (fun l => parsePairs fuel l) ts

/-- `Array` bodies: `value ,` elements up to the closing parenthesis —
every element carries the conventional trailing comma. -/
def parseElems : Nat → List Token → Except ParseError (List Value × List Token)
  | 0, _ => .error .badStructure
  | fuel + 1, ts =>
    parseElemsBody (fun l => parseValue fuel l) (fun l => parseElems fuel l) ts

end

/-- First value bound to a key in a pair list. -/
def lookupPairs (k : String) : List (String × Value) → Option Value
  | [] => none
  | (k2, v) :: ps => if k2 = k then some v else lookupPairs k ps

/-- Splitting the first `isa` entry out of a record's parsed fields. -/
def extractIsa : List (String × Value) → Option (String × List (String × Value))
  | [] => none
  | (k, v) :: fs =>
    if k = "isa" then
      match v with
      | .str s => some (s, fs)
      | _ => none
    else (extractIsa fs).map fun p => (p.1, (k, v) :: p.2)

/-- Modelled from the spec: the Object Graph Builder's record pass —
every entry of `objects` must be a dictionary carrying an `isa` tag. -/
def buildRecords : List (String × Value) → Except ParseError (List ObjectRecord)
  | [] => .ok []
  | (k, v) :: ps =>
    match v with
    | .dict fs =>
      match extractIsa fs with
      | some p =>
        match buildRecords ps with
        | .error e => .error e
        | .ok rs => .ok ({ id := k, isa := p.1, fields := p.2 } :: rs)
      | none => .error .badStructure
    | _ => .error .badStructure

/-- The first identifier occurring twice in a list, if any. -/
def firstDup : List String → Option String
  | [] => none
  | x :: xs => if x ∈ xs then some x else firstDup xs

/-- Modelled from the spec: the Object Graph Builder — locate `objects`
and `rootObject` in the root dictionary, build the record table, fail
with `DuplicateIdentifier` on a repeated key. -/
def buildGraph (v : Value) : Except ParseError Graph :=
  match v with
  | .dict ps =>
    match lookupPairs "objects" ps, lookupPairs "rootObject" ps with
    | some (.dict ops), some (.ident root cmt) =>
      match buildRecords ops with
      | .error e => .error e
      | .ok rs =>
        match firstDup (rs.map (·.id)) with
        | some i => .error (.duplicateIdentifier i)
        | none => .ok { objects := rs, rootObject := root, rootComment := cmt }
    | _, _ => .error .badStructure
  | _ => .error .badStructure

/-- The fixed magic first line of the format. -/
def headerChars : List Char := "// !$*UTF8*$!".toList

/-- Splitting off the first line (up to an exclusive newline). -/
def splitFirstLine : List Char → List Char × List Char
  | [] => ([], [])
  | c :: rest =>
    if c = '\n' then ([], rest)
    else ((splitFirstLine rest).1.cons c, (splitFirstLine rest).2)

/-- Modelled from the spec: `parse` — requires the magic header as the
first line (anything else is a fatal `ParseError` before any other work),
then tokenizes, parses the root value, requires the input to be exhausted
and builds the object graph. -/
def parse (cs : List Char) : Except ParseError Graph :=
  if (splitFirstLine cs).1 = headerChars then
    match tokenizeRaw (splitFirstLine cs).2 with
    | .error e => .error e
    | .ok raw =>
      match parseValue ((attach raw).length + 1) (attach raw) with
      | .error e => .error e
      | .ok vr =>
        match vr.2 with
        | [] => buildGraph vr.1
        | _ => .error .badStructure
  else .error .missingHeader

/-- Whether a string may be emitted as a bareword. -/
def bareSafe (s : String) : Bool :=
  (!s.data.isEmpty) && s.data.all bareChar

/-- A dictionary key, emitted as a bareword when safe, quoted otherwise. -/
def keyToken (k : String) : Token :=
  if bareSafe k then .bare k none else .str k none

/-- A `Str` value: emitted as a bareword when safe and not
identifier-shaped (which would re-parse as an `Ident`), quoted
otherwise. -/
def strToken (s : String) : Token :=
  if bareSafe s && !isHex24 s then .bare s none else .str s none

mutual

/-- Modelled from the spec: the Canonicalizing Serializer on values. -/
def serValue : Value → List Token
  | .str s => [strToken s]
  | .ident j cmt => [.bare j cmt]
  | .dict ps => .lbrace :: (serPairs ps ++ [.rbrace])
  | .arr es => .lparen :: (serElems es ++ [.rparen])

/-- Array elements, each with the conventional trailing comma. -/
def serElems : List Value → List Token
  | [] => []
  | v :: vs => serValue v ++ [.comma] ++ serElems vs

/-- Dictionary pairs, `key = value ;` each. -/
def serPairs : List (String × Value) → List Token
  | [] => []
  | (k, v) :: ps => keyToken k :: .equals :: (serValue v ++ [.semi] ++ serPairs ps)

end

/-- Records in canonical order: ascending identifier. -/
def sortRecords (l : List ObjectRecord) : List ObjectRecord :=
  l.insertionSort fun a b => a.id ≤ b.id

/-- One record as an entry of the `objects` dictionary:
`id = { isa = ...; fields }`. -/
def recPair (r : ObjectRecord) : String × Value :=
  (r.id, .dict (("isa", .str r.isa) :: r.fields))

/-- The root dictionary of the canonical serialization: `objects` first
(records sorted by ascending id), then `rootObject`. -/
def rootValue (g : Graph) : Value :=
  .dict [("objects", .dict ((sortRecords g.objects).map recPair)),
         ("rootObject", .ident g.rootObject g.rootComment)]

/-- The canonical token stream of a whole graph. -/
def serGraphTokens (g : Graph) : List Token :=
  serValue (rootValue g)

/-- Modelled from the spec: `serialize` — the deterministic canonical
byte sequence of a graph: the magic header line, then the rendered
canonical token stream. -/
def serialize (g : Graph) : List Char :=
  headerChars ++ '\n' :: renderTokens (serGraphTokens g)

/-- Whether a character list is free of the comment-closing digraph. -/
def noClose : List Char → Bool
  | [] => true
  | [_] => true
  | c :: d :: rest => !(c = '*' && d = '/') && noClose (d :: rest)

/-- Cleanliness of a raw token for rendering: barewords are nonempty
bareword-character strings, comment bodies never close themselves. -/
def rawClean : RawToken → Bool
  | .bare s => bareSafe s
  | .comment s => noClose s.data
  | _ => true

theorem readStr_escape (tail : List Char) :
    ∀ l : List Char, readStr (escapeChars l ++ '"' :: tail) = some (l, tail)
  | [] => by
    rw [escapeChars]
    simp only [List.nil_append]
    rw [readStr.eq_def]
    simp
  | c :: cs => by
    rw [escapeChars]
    by_cases hc : (c = '"' || c = '\\') = true
    · rw [if_pos hc]
      simp only [List.cons_append]
      rw [readStr.eq_def]
      simp [readStr_escape tail cs]
    · rw [if_neg hc]
      simp only [List.cons_append]
      rw [readStr.eq_def]
      simp only [Bool.or_eq_true, decide_eq_true_eq] at hc
      push_neg at hc
      simp [hc.1, hc.2, readStr_escape tail cs]

theorem noClose_cons {c : Char} {cs : List Char} (h : noClose (c :: cs) = true) :
    noClose cs = true := by
  cases cs with
  | nil => rfl
  | cons d cs2 =>
    rw [noClose] at h
    simp only [Bool.and_eq_true] at h
    exact h.2

theorem readCmt_render (tail : List Char) :
    ∀ l : List Char, noClose l = true →
      readCmt (l ++ '*' :: '/' :: tail) = some (l, tail)
  | [], h => by
    rw [List.nil_append, readCmt.eq_def]
    simp
  | c :: cs, h => by
    have hcs := noClose_cons h
    rw [List.cons_append, readCmt.eq_def]
    simp only []
    by_cases hc : c = '*'
    · subst hc
      rw [if_pos rfl]
      cases cs with
      | nil =>
        simp only [List.nil_append]
        rw [readCmt.eq_def]
        simp
      | cons d cs2 =>
        have hd : d ≠ '/' := by
          intro h2
          subst h2
          simp [noClose] at h
        simp only [List.cons_append]
        split
        · rename_i rest2 heq
          injection heq with h1 h2
          exact absurd h1 hd
        · rw [← List.cons_append, readCmt_render tail (d :: cs2) hcs]
          rfl
    · rw [if_neg hc, readCmt_render tail cs hcs]
      rfl

theorem hexChar_bare {c : Char} (h : isHexChar c = true) : bareChar c = true := by
  simp only [isHexChar, Bool.or_eq_true, Bool.and_eq_true, decide_eq_true_eq] at h
  simp only [bareChar, Char.isAlphanum, Char.isAlpha, Char.isDigit, Char.isUpper,
    Char.isLower, Bool.or_eq_true, Bool.and_eq_true, decide_eq_true_eq]
  have toN : ∀ a b : Char, a ≤ b → a.toNat ≤ b.toNat := fun a b hb => hb
  have mk : ∀ a b : Char, a.toNat ≤ b.toNat → b.val ≥ a.val := fun a b hb => hb
  have mk2 : ∀ a b : Char, a.toNat ≤ b.toNat → a.val ≤ b.val := fun a b hb => hb
  rcases h with (⟨h1, h2⟩ | ⟨h1, h2⟩) | ⟨h1, h2⟩
  · exact Or.inl (Or.inl (Or.inr ⟨mk '0' c (toN _ _ h1), mk2 c '9' (toN _ _ h2)⟩))
  · have hz : ('f' : Char).toNat ≤ ('z' : Char).toNat := by decide
    exact Or.inl (Or.inl (Or.inl (Or.inr
      ⟨mk 'a' c (toN _ _ h1), mk2 c 'z' (le_trans (toN _ _ h2) hz)⟩)))
  · have hz : ('F' : Char).toNat ≤ ('Z' : Char).toNat := by decide
    exact Or.inl (Or.inl (Or.inl (Or.inl
      ⟨mk 'A' c (toN _ _ h1), mk2 c 'Z' (le_trans (toN _ _ h2) hz)⟩)))

theorem bareChar_guards {c : Char} (h : bareChar c = true) :
    isWsChar c = false ∧ c ≠ '\x7b' ∧ c ≠ '\x7d' ∧ c ≠ '(' ∧ c ≠ ')' ∧
      c ≠ '=' ∧ c ≠ ';' ∧ c ≠ ',' ∧ c ≠ '"' ∧ c ≠ '/' := by
  refine ⟨?_, ?_, ?_, ?_, ?_, ?_, ?_, ?_, ?_, ?_⟩
  · by_contra hw
    have hw2 : isWsChar c = true := by simpa using hw
    simp only [isWsChar, Bool.or_eq_true, decide_eq_true_eq] at hw2
    rcases hw2 with ((rfl | rfl) | rfl) | rfl
    all_goals exact absurd h (by decide)
  all_goals rintro rfl
  all_goals exact absurd h (by decide)

theorem takeWhile_all_append {p : Char → Bool} :
    ∀ (l : List Char), l.all p = true → ∀ (c : Char), p c = false →
      ∀ t : List Char,
        (l ++ c :: t).takeWhile p = l ∧ (l ++ c :: t).dropWhile p = c :: t
  | [], _, c, hc, t => by simp [List.takeWhile, List.dropWhile, hc]
  | a :: l, hall, c, hc, t => by
    simp only [List.all_cons, Bool.and_eq_true] at hall
    have ih := takeWhile_all_append l hall.2 c hc t
    simp [List.takeWhile_cons, List.dropWhile_cons, hall.1, ih.1, ih.2]

theorem hex24_bareSafe {s : String} (h : isHex24 s = true) :
    bareSafe s = true := by
  simp only [isHex24, Bool.and_eq_true, decide_eq_true_eq] at h
  obtain ⟨hlen, hall⟩ := h
  simp only [bareSafe, Bool.and_eq_true, Bool.not_eq_true']
  constructor
  · have : s.data.length = 24 := hlen
    cases hd : s.data
    · rw [hd] at this
      simp at this
    · simp [List.isEmpty]
  · simp only [List.all_eq_true] at hall ⊢
    exact fun c hc => hexChar_bare (hall c hc)

theorem tokF_ws {c : Char} (h : isWsChar c = true) (f : Nat) (cs : List Char) :
    tokenizeF (f + 1) (c :: cs) = tokenizeF f cs := by
  rw [tokenizeF]
  simp [tokBranch, h]

theorem tokF_lbrace (f : Nat) (cs : List Char) :
    tokenizeF (f + 1) ('\x7b' :: cs) = (tokenizeF f cs).map (.lbrace :: ·) := by
  rw [tokenizeF]
  simp [tokBranch, isWsChar]

theorem tokF_rbrace (f : Nat) (cs : List Char) :
    tokenizeF (f + 1) ('\x7d' :: cs) = (tokenizeF f cs).map (.rbrace :: ·) := by
  rw [tokenizeF]
  simp [tokBranch, isWsChar]

theorem tokF_lparen (f : Nat) (cs : List Char) :
    tokenizeF (f + 1) ('(' :: cs) = (tokenizeF f cs).map (.lparen :: ·) := by
  rw [tokenizeF]
  simp [tokBranch, isWsChar]

theorem tokF_rparen (f : Nat) (cs : List Char) :
    tokenizeF (f + 1) (')' :: cs) = (tokenizeF f cs).map (.rparen :: ·) := by
  rw [tokenizeF]
  simp [tokBranch, isWsChar]

theorem tokF_equals (f : Nat) (cs : List Char) :
    tokenizeF (f + 1) ('=' :: cs) = (tokenizeF f cs).map (.equals :: ·) := by
  rw [tokenizeF]
  simp [tokBranch, isWsChar]

theorem tokF_semi (f : Nat) (cs : List Char) :
    tokenizeF (f + 1) (';' :: cs) = (tokenizeF f cs).map (.semi :: ·) := by
  rw [tokenizeF]
  simp [tokBranch, isWsChar]

theorem tokF_comma (f : Nat) (cs : List Char) :
    tokenizeF (f + 1) (',' :: cs) = (tokenizeF f cs).map (.comma :: ·) := by
  rw [tokenizeF]
  simp [tokBranch, isWsChar]

theorem tokF_quote (f : Nat) (cs : List Char) :
    tokenizeF (f + 1) ('"' :: cs) =
      match readStr cs with
      | some p => (tokenizeF f p.2).map (.str (String.mk p.1) :: ·)
      | none => .error .unterminatedString := by
  rw [tokenizeF]
  simp [tokBranch, isWsChar]

theorem tokF_cmt (f : Nat) (cs : List Char) :
    tokenizeF (f + 1) ('/' :: '*' :: cs) =
      match readCmt cs with
      | some p => (tokenizeF f p.2).map (.comment (String.mk p.1) :: ·)
      | none => .error .unterminatedComment := by
  rw [tokenizeF]
  simp [tokBranch, isWsChar]

theorem tokF_bare {c : Char} (h : bareChar c = true) (f : Nat) (cs : List Char) :
    tokenizeF (f + 1) (c :: cs) =
      (tokenizeF f (cs.dropWhile bareChar)).map
        (.bare (String.mk (c :: cs.takeWhile bareChar)) :: ·) := by
  obtain ⟨gw, g1, g2, g3, g4, g5, g6, g7, g8, g9⟩ := bareChar_guards h
  rw [tokenizeF]
  simp [tokBranch, gw, g1, g2, g3, g4, g5, g6, g7, g8, g9, h]

theorem tokF_quote_render (f : Nat) (l tail : List Char) :
    tokenizeF (f + 1) ('"' :: (escapeChars l ++ '"' :: tail)) =
      (tokenizeF f tail).map (.str (String.mk l) :: ·) := by
  rw [tokF_quote, readStr_escape tail l]

theorem tokF_cmt_render (f : Nat) (l tail : List Char) (h : noClose l = true) :
    tokenizeF (f + 1) ('/' :: '*' :: (l ++ '*' :: '/' :: tail)) =
      (tokenizeF f tail).map (.comment (String.mk l) :: ·) := by
  rw [tokF_cmt, readCmt_render tail l h]

theorem tokF_bare_render (f : Nat) {c : Char} {l : List Char} (tail : List Char)
    (hc : bareChar c = true) (hl : l.all bareChar = true) :
    tokenizeF (f + 1) (c :: (l ++ '\n' :: tail)) =
      (tokenizeF f ('\n' :: tail)).map (.bare (String.mk (c :: l)) :: ·) := by
  rw [tokF_bare hc]
  have htk := takeWhile_all_append l hl '\n' (by decide) tail
  rw [htk.1, htk.2]

theorem bareSafe_length {s : String} (h : bareSafe s = true) :
    1 ≤ s.length := by
  simp only [bareSafe, Bool.and_eq_true, Bool.not_eq_true'] at h
  have hne : s.data ≠ [] := by
    intro hd
    rw [hd] at h
    simp [List.isEmpty] at h
  have hlen : s.data.length ≠ 0 := fun h0 => hne (List.length_eq_zero.1 h0)
  show 1 ≤ s.data.length
  omega

theorem renderRawTokens_cons (t : RawToken) (ts : List RawToken) :
    renderRawTokens (t :: ts) = renderRaw t ++ '\n' :: renderRawTokens ts := by
  simp [renderRawTokens, List.flatMap_cons]

/-- On canonically rendered clean raw tokens, the Tokenizer is the
renderer's inverse. -/
theorem tokenizeF_render :
    ∀ (ts : List RawToken), (∀ t ∈ ts, rawClean t = true) →
      ∀ fuel : Nat, (renderRawTokens ts).length ≤ fuel →
        tokenizeF fuel (renderRawTokens ts) = .ok ts
  | [], _, fuel, _ => by
    simp [renderRawTokens]
    cases fuel <;> rfl
  | t :: ts, hcln, fuel, hfuel => by
    have hts : ∀ u ∈ ts, rawClean u = true :=
      fun u hu => hcln u (List.mem_cons_of_mem t hu)
    have hct : rawClean t = true := hcln t (List.mem_cons_self t ts)
    rw [renderRawTokens_cons] at hfuel ⊢
    rw [List.length_append] at hfuel
    simp only [List.length_cons] at hfuel
    match fuel, hfuel with
    | 0, hfuel => simp [renderRaw] at hfuel <;> omega
    | 1, hfuel =>
      exfalso
      cases t with
      | bare s =>
        have hsl := bareSafe_length hct
        simp [renderRaw] at hfuel
        omega
      | _ => simp [renderRaw] at hfuel <;> omega
    | (f2 + 1) + 1, hfuel =>
      have hf2 : (renderRawTokens ts).length ≤ f2 := by
        cases t with
        | bare s =>
          have hsl := bareSafe_length hct
          simp [renderRaw] at hfuel
          omega
        | _ => simp [renderRaw] at hfuel <;> omega
      have hrec := tokenizeF_render ts hts f2 hf2
      cases t with
      | lbrace =>
        rw [renderRaw, List.cons_append, List.nil_append, tokF_lbrace,
          tokF_ws (by decide), hrec]
        rfl
      | rbrace =>
        rw [renderRaw, List.cons_append, List.nil_append, tokF_rbrace,
          tokF_ws (by decide), hrec]
        rfl
      | lparen =>
        rw [renderRaw, List.cons_append, List.nil_append, tokF_lparen,
          tokF_ws (by decide), hrec]
        rfl
      | rparen =>
        rw [renderRaw, List.cons_append, List.nil_append, tokF_rparen,
          tokF_ws (by decide), hrec]
        rfl
      | equals =>
        rw [renderRaw, List.cons_append, List.nil_append, tokF_equals,
          tokF_ws (by decide), hrec]
        rfl
      | semi =>
        rw [renderRaw, List.cons_append, List.nil_append, tokF_semi,
          tokF_ws (by decide), hrec]
        rfl
      | comma =>
        rw [renderRaw, List.cons_append, List.nil_append, tokF_comma,
          tokF_ws (by decide), hrec]
        rfl
      | str s =>
        rw [renderRaw,
          show ('"' :: escapeChars s.data ++ ['"']) ++ '\n' :: renderRawTokens ts
            = '"' :: (escapeChars s.data ++ '"' :: '\n' :: renderRawTokens ts)
          from by simp,
          tokF_quote_render, tokF_ws (by decide), hrec]
        rfl
      | comment s =>
        have hnc : noClose s.data = true := hct
        rw [renderRaw,
          show ('/' :: '*' :: s.data ++ ['*', '/']) ++ '\n' :: renderRawTokens ts
            = '/' :: '*' :: (s.data ++ '*' :: '/' :: '\n' :: renderRawTokens ts)
          from by simp,
          tokF_cmt_render _ _ _ hnc, tokF_ws (by decide), hrec]
        rfl
      | bare s =>
        have hbs : bareSafe s = true := hct
        simp only [bareSafe, Bool.and_eq_true, Bool.not_eq_true'] at hbs
        obtain ⟨hne, hall⟩ := hbs
        match hd : s.data, hall with
        | [], hall => rw [hd] at hne; simp [List.isEmpty] at hne
        | c0 :: l0, hall =>
          simp only [List.all_cons, Bool.and_eq_true] at hall
          rw [renderRaw, hd, List.cons_append,
            tokF_bare_render _ _ hall.1 hall.2, tokF_ws (by decide), hrec]
          have heta : String.mk (c0 :: l0) = s := by rw [← hd]
          rw [heta]
          rfl

/-- The Tokenizer inverts the canonical renderer on clean raw tokens. -/
theorem tokenizeRaw_render (ts : List RawToken)
    (h : ∀ t ∈ ts, rawClean t = true) :
    tokenizeRaw (renderRawTokens ts) = .ok ts :=
  tokenizeF_render ts h (renderRawTokens ts).length le_rfl

/-- Cleanliness of an optional comment annotation. -/
def cmtOk : Option String → Bool
  | none => true
  | some c => noClose c.data

/-- Cleanliness of an attached token for rendering. -/
def tokClean : Token → Bool
  | .bare s cmt => bareSafe s && cmtOk cmt
  | .str _ cmt => cmtOk cmt
  | _ => true

theorem rawOf_clean {t : Token} (h : tokClean t = true) :
    ∀ r ∈ rawOf t, rawClean r = true := by
  intro r hr
  cases t with
  | str s cmt =>
    cases cmt with
    | none =>
      simp only [rawOf, List.mem_singleton] at hr
      subst hr
      rfl
    | some c =>
      simp [rawOf] at hr
      rcases hr with rfl | rfl
      · rfl
      · simpa [rawClean, tokClean, cmtOk] using h
  | bare s cmt =>
    simp only [tokClean, Bool.and_eq_true] at h
    cases cmt with
    | none =>
      simp only [rawOf, List.mem_singleton] at hr
      subst hr
      simpa [rawClean] using h.1
    | some c =>
      simp [rawOf] at hr
      rcases hr with rfl | rfl
      · simpa [rawClean] using h.1
      · simpa [rawClean, cmtOk] using h.2
  | lbrace => simp only [rawOf, List.mem_singleton] at hr; subst hr; rfl
  | rbrace => simp only [rawOf, List.mem_singleton] at hr; subst hr; rfl
  | lparen => simp only [rawOf, List.mem_singleton] at hr; subst hr; rfl
  | rparen => simp only [rawOf, List.mem_singleton] at hr; subst hr; rfl
  | equals => simp only [rawOf, List.mem_singleton] at hr; subst hr; rfl
  | semi => simp only [rawOf, List.mem_singleton] at hr; subst hr; rfl
  | comma => simp only [rawOf, List.mem_singleton] at hr; subst hr; rfl

theorem flatMap_rawOf_clean {ts : List Token}
    (h : ∀ t ∈ ts, tokClean t = true) :
    ∀ r ∈ ts.flatMap rawOf, rawClean r = true := by
  intro r hr
  rw [List.mem_flatMap] at hr
  obtain ⟨t, ht, hrt⟩ := hr
  exact rawOf_clean (h t ht) r hrt

theorem flat_rawOf_head :
    ∀ ts : List Token, ts.flatMap rawOf = [] ∨
      ∃ h tl, ts.flatMap rawOf = h :: tl ∧ ∀ cs, h ≠ RawToken.comment cs
  | [] => Or.inl rfl
  | t :: ts => by
    rw [List.flatMap_cons]
    cases t with
    | str s cmt =>
      cases cmt <;> exact Or.inr ⟨_, _, rfl, by intro cs hne; cases hne⟩
    | bare s cmt =>
      cases cmt <;> exact Or.inr ⟨_, _, rfl, by intro cs hne; cases hne⟩
    | lbrace => exact Or.inr ⟨_, _, rfl, by intro cs hne; cases hne⟩
    | rbrace => exact Or.inr ⟨_, _, rfl, by intro cs hne; cases hne⟩
    | lparen => exact Or.inr ⟨_, _, rfl, by intro cs hne; cases hne⟩
    | rparen => exact Or.inr ⟨_, _, rfl, by intro cs hne; cases hne⟩
    | equals => exact Or.inr ⟨_, _, rfl, by intro cs hne; cases hne⟩
    | semi => exact Or.inr ⟨_, _, rfl, by intro cs hne; cases hne⟩
    | comma => exact Or.inr ⟨_, _, rfl, by intro cs hne; cases hne⟩

theorem attach_app_not_comment {x : RawToken} (hx : ∀ cs, x ≠ .comment cs)
    (tl : List RawToken) :
    (attach (RawToken.bare s :: x :: tl) = .bare s none :: attach (x :: tl))
      ∧ (attach (RawToken.str s :: x :: tl) = .str s none :: attach (x :: tl)) := by
  cases x with
  | comment cs => exact absurd rfl (hx cs)
  | lbrace => exact ⟨rfl, rfl⟩
  | rbrace => exact ⟨rfl, rfl⟩
  | lparen => exact ⟨rfl, rfl⟩
  | rparen => exact ⟨rfl, rfl⟩
  | equals => exact ⟨rfl, rfl⟩
  | semi => exact ⟨rfl, rfl⟩
  | comma => exact ⟨rfl, rfl⟩
  | str s2 => exact ⟨rfl, rfl⟩
  | bare s2 => exact ⟨rfl, rfl⟩

/-- Attachment of comments undoes the raw expansion exactly. -/
theorem attach_rawOf : ∀ ts : List Token, attach (ts.flatMap rawOf) = ts
  | [] => rfl
  | t :: ts => by
    have ih := attach_rawOf ts
    rw [List.flatMap_cons]
    cases t with
    | lbrace => rw [show rawOf Token.lbrace = [.lbrace] from rfl]; simp [attach, ih]
    | rbrace => rw [show rawOf Token.rbrace = [.rbrace] from rfl]; simp [attach, ih]
    | lparen => rw [show rawOf Token.lparen = [.lparen] from rfl]; simp [attach, ih]
    | rparen => rw [show rawOf Token.rparen = [.rparen] from rfl]; simp [attach, ih]
    | equals => rw [show rawOf Token.equals = [.equals] from rfl]; simp [attach, ih]
    | semi => rw [show rawOf Token.semi = [.semi] from rfl]; simp [attach, ih]
    | comma => rw [show rawOf Token.comma = [.comma] from rfl]; simp [attach, ih]
    | str s cmt =>
      cases cmt with
      | some c =>
        rw [show rawOf (Token.str s (some c)) = [.str s, .comment c] from rfl]
        simp [attach, ih]
      | none =>
        rw [show rawOf (Token.str s none) = [.str s] from rfl]
        rcases flat_rawOf_head ts with hnil | ⟨x, tl, heq, hx⟩
        · rw [hnil] at ih
          rw [hnil, ← ih]
          rfl
        · rw [heq] at ih ⊢
          rw [List.singleton_append, (attach_app_not_comment hx tl).2, ih]
    | bare s cmt =>
      cases cmt with
      | some c =>
        rw [show rawOf (Token.bare s (some c)) = [.bare s, .comment c] from rfl]
        simp [attach, ih]
      | none =>
        rw [show rawOf (Token.bare s none) = [.bare s] from rfl]
        rcases flat_rawOf_head ts with hnil | ⟨x, tl, heq, hx⟩
        · rw [hnil] at ih
          rw [hnil, ← ih]
          rfl
        · rw [heq] at ih ⊢
          rw [List.singleton_append, (attach_app_not_comment hx tl).1, ih]

mutual

/-- Every `Ident` inside the value has the 24-hex identifier shape (true
of every validated graph, and of every parser output). -/
def identsOkV : Value → Bool
  | .str _ => true
  | .ident j _ => isHex24 j
  | .dict ps => identsOkP ps
  | .arr es => identsOkL es

/-- `identsOkV` over array elements. -/
def identsOkL : List Value → Bool
  | [] => true
  | v :: vs => identsOkV v && identsOkL vs

/-- `identsOkV` over pair values. -/
def identsOkP : List (String × Value) → Bool
  | [] => true
  | (_, v) :: ps => identsOkV v && identsOkP ps

end

mutual

/-- Recursion-depth measure of the value parser on a value's canonical
token stream. -/
def sizeV : Value → Nat
  | .str _ => 1
  | .ident _ _ => 1
  | .dict ps => sizeP ps + 1
  | .arr es => sizeL es + 1

/-- The element-list measure. -/
def sizeL : List Value → Nat
  | [] => 1
  | v :: vs => sizeV v + sizeL vs + 1

/-- The pair-list measure. -/
def sizeP : List (String × Value) → Nat
  | [] => 1
  | (_, v) :: ps => sizeV v + sizeP ps + 1

end

theorem sizeV_pos (v : Value) : 1 ≤ sizeV v := by
  cases v <;> simp [sizeV]

theorem sizeL_pos (es : List Value) : 1 ≤ sizeL es := by
  cases es with
  | nil => simp [sizeL]
  | cons v vs => simp [sizeL]

theorem sizeP_pos (ps : List (String × Value)) : 1 ≤ sizeP ps := by
  cases ps with
  | nil => simp [sizeP]
  | cons kv ps =>
    obtain ⟨k, v⟩ := kv
    simp [sizeP]

theorem serValue_head (v : Value) :
    ∃ t rest, serValue v = t :: rest ∧ t ≠ .rbrace ∧ t ≠ .rparen := by
  cases v with
  | str s =>
    refine ⟨strToken s, [], rfl, ?_, ?_⟩
    all_goals unfold strToken
    all_goals split
    all_goals simp
  | ident j cmt => exact ⟨.bare j cmt, [], rfl, by simp, by simp⟩
  | dict ps => exact ⟨.lbrace, _, rfl, by simp, by simp⟩
  | arr es => exact ⟨.lparen, _, rfl, by simp, by simp⟩

theorem rtV_str (s : String) (f : Nat) (rest : List Token) :
    parseValue (f + 1) (serValue (.str s) ++ rest) = .ok (.str s, rest) := by
  rw [parseValue]
  rw [show serValue (.str s) = [strToken s] from rfl]
  unfold strToken
  by_cases hb : (bareSafe s && !isHex24 s) = true
  · rw [if_pos hb]
    simp only [Bool.and_eq_true, Bool.not_eq_true'] at hb
    simp [parseValueBody, hb.2]
  · rw [if_neg hb]
    simp [parseValueBody]

theorem rtV_ident (j : String) (cmt : Option String) (hj : isHex24 j = true)
    (f : Nat) (rest : List Token) :
    parseValue (f + 1) (serValue (.ident j cmt) ++ rest)
      = .ok (.ident j cmt, rest) := by
  rw [parseValue]
  rw [show serValue (.ident j cmt) = [.bare j cmt] from rfl]
  simp [parseValueBody, hj]

theorem rtV_dict_shape (ps : List (String × Value)) (f : Nat) (rest : List Token)
    (h : parsePairs f (serPairs ps ++ .rbrace :: rest) = .ok (ps, rest)) :
    parseValue (f + 1) (serValue (.dict ps) ++ rest) = .ok (.dict ps, rest) := by
  rw [parseValue]
  rw [show serValue (.dict ps) = .lbrace :: (serPairs ps ++ [.rbrace]) from rfl]
  simp only [List.cons_append, List.append_assoc, List.singleton_append,
    List.nil_append]
  simp only [parseValueBody]
  rw [h]

theorem rtV_arr_shape (es : List Value) (f : Nat) (rest : List Token)
    (h : parseElems f (serElems es ++ .rparen :: rest) = .ok (es, rest)) :
    parseValue (f + 1) (serValue (.arr es) ++ rest) = .ok (.arr es, rest) := by
  rw [parseValue]
  rw [show serValue (.arr es) = .lparen :: (serElems es ++ [.rparen]) from rfl]
  simp only [List.cons_append, List.append_assoc, List.singleton_append,
    List.nil_append]
  simp only [parseValueBody]
  rw [h]

theorem rtP_nil (f : Nat) (rest : List Token) :
    parsePairs (f + 1) (serPairs [] ++ .rbrace :: rest) = .ok ([], rest) := by
  rw [parsePairs]
  rw [show serPairs [] = [] from rfl]
  simp [parsePairsBody]

theorem rtL_nil (f : Nat) (rest : List Token) :
    parseElems (f + 1) (serElems [] ++ .rparen :: rest) = .ok ([], rest) := by
  rw [parseElems]
  rw [show serElems [] = [] from rfl]
  simp [parseElemsBody]

theorem rtP_cons_shape (k : String) (v : Value) (ps : List (String × Value))
    (f : Nat) (rest : List Token)
    (hv : ∀ r, parseValue f (serValue v ++ r) = .ok (v, r))
    (hp : parsePairs f (serPairs ps ++ .rbrace :: rest) = .ok (ps, rest)) :
    parsePairs (f + 1) (serPairs ((k, v) :: ps) ++ .rbrace :: rest)
      = .ok ((k, v) :: ps, rest) := by
  rw [parsePairs]
  rw [show serPairs ((k, v) :: ps)
      = keyToken k :: .equals :: (serValue v ++ [.semi] ++ serPairs ps) from rfl]
  simp only [List.cons_append, List.append_assoc, List.singleton_append,
    List.nil_append]
  unfold keyToken
  by_cases hbk : bareSafe k = true
  · rw [if_pos hbk]
    simp only [parsePairsBody, parseKey, expectTok, reduceCtorEq, if_false,
      reduceIte]
    rw [hv (.semi :: (serPairs ps ++ .rbrace :: rest))]
    simp only [expectTok, reduceIte]
    rw [hp]
  · rw [if_neg hbk]
    simp only [parsePairsBody, parseKey, expectTok, reduceCtorEq, if_false,
      reduceIte]
    rw [hv (.semi :: (serPairs ps ++ .rbrace :: rest))]
    simp only [expectTok, reduceIte]
    rw [hp]

theorem rtL_cons_shape (v : Value) (vs : List Value)
    (f : Nat) (rest : List Token)
    (hv : ∀ r, parseValue f (serValue v ++ r) = .ok (v, r))
    (hl : parseElems f (serElems vs ++ .rparen :: rest) = .ok (vs, rest)) :
    parseElems (f + 1) (serElems (v :: vs) ++ .rparen :: rest)
      = .ok (v :: vs, rest) := by
  rw [parseElems]
  rw [show serElems (v :: vs) = serValue v ++ [.comma] ++ serElems vs from rfl]
  obtain ⟨t0, r0, hsv, hne1, hne2⟩ := serValue_head v
  rw [hsv]
  simp only [List.cons_append, List.append_assoc, List.singleton_append,
    List.nil_append]
  simp only [parseElemsBody]
  rw [if_neg hne2]
  rw [show t0 :: (r0 ++ .comma :: (serElems vs ++ .rparen :: rest))
      = (t0 :: r0) ++ (.comma :: (serElems vs ++ .rparen :: rest)) from rfl]
  rw [← hsv, hv]
  simp only [expectTok, reduceIte]
  rw [hl]

mutual

/-- On a value's canonical token stream, the value parser is the
serializer's inverse (given identifier-shaped `Ident`s and enough fuel). -/
theorem rtV : ∀ (v : Value), identsOkV v = true → ∀ fuel : Nat,
    sizeV v ≤ fuel → ∀ rest, parseValue fuel (serValue v ++ rest) = .ok (v, rest)
  | .str s, _, fuel, hsz, rest => by
    cases fuel with
    | zero => exact absurd hsz (by simp [sizeV])
    | succ f => exact rtV_str s f rest
  | .ident j cmt, hok, fuel, hsz, rest => by
    cases fuel with
    | zero => exact absurd hsz (by simp [sizeV])
    | succ f => exact rtV_ident j cmt (by simpa [identsOkV] using hok) f rest
  | .dict ps, hok, fuel, hsz, rest => by
    cases fuel with
    | zero => exact absurd hsz (by simp [sizeV])
    | succ f =>
      apply rtV_dict_shape
      exact rtP ps (by simpa [identsOkV] using hok) f
        (by simp only [sizeV] at hsz; omega) rest
  | .arr es, hok, fuel, hsz, rest => by
    cases fuel with
    | zero => exact absurd hsz (by simp [sizeV])
    | succ f =>
      apply rtV_arr_shape
      exact rtL es (by simpa [identsOkV] using hok) f
        (by simp only [sizeV] at hsz; omega) rest

/-- Pair-list round trip. -/
theorem rtP : ∀ (ps : List (String × Value)), identsOkP ps = true →
    ∀ fuel : Nat, sizeP ps ≤ fuel → ∀ rest,
      parsePairs fuel (serPairs ps ++ .rbrace :: rest) = .ok (ps, rest)
  | [], _, fuel, hsz, rest => by
    cases fuel with
    | zero => exact absurd hsz (by simp [sizeP])
    | succ f => exact rtP_nil f rest
  | (k, v) :: ps, hok, fuel, hsz, rest => by
    cases fuel with
    | zero => exact absurd hsz (by simp [sizeP])
    | succ f =>
      simp only [identsOkP, Bool.and_eq_true] at hok
      simp only [sizeP] at hsz
      exact rtP_cons_shape k v ps f rest
        (fun r => rtV v hok.1 f (by omega) r)
        (rtP ps hok.2 f (by omega) rest)

/-- Element-list round trip. -/
theorem rtL : ∀ (es : List Value), identsOkL es = true →
    ∀ fuel : Nat, sizeL es ≤ fuel → ∀ rest,
      parseElems fuel (serElems es ++ .rparen :: rest) = .ok (es, rest)
  | [], _, fuel, hsz, rest => by
    cases fuel with
    | zero => exact absurd hsz (by simp [sizeL])
    | succ f => exact rtL_nil f rest
  | v :: vs, hok, fuel, hsz, rest => by
    cases fuel with
    | zero => exact absurd hsz (by simp [sizeL])
    | succ f =>
      simp only [identsOkL, Bool.and_eq_true] at hok
      simp only [sizeL] at hsz
      exact rtL_cons_shape v vs f rest
        (fun r => rtV v hok.1 f (by omega) r)
        (rtL vs hok.2 f (by omega) rest)

end

mutual

/-- Every comment annotation inside the value is renderable: it never
contains the comment-closing digraph (true of every parsed comment by
construction of the tokenizer). -/
def cmtsOkV : Value → Bool
  | .str _ => true
  | .ident _ cmt => cmtOk cmt
  | .dict ps => cmtsOkP ps
  | .arr es => cmtsOkL es

/-- `cmtsOkV` over array elements. -/
def cmtsOkL : List Value → Bool
  | [] => true
  | v :: vs => cmtsOkV v && cmtsOkL vs

/-- `cmtsOkV` over pair values. -/
def cmtsOkP : List (String × Value) → Bool
  | [] => true
  | (_, v) :: ps => cmtsOkV v && cmtsOkP ps

end

/-- Every comment annotation anywhere in the graph is renderable. -/
def cmtsOkG (g : Graph) : Bool :=
  (g.objects.all fun r => cmtsOkP r.fields) && cmtOk g.rootComment

/-- The canonical form of a graph: the records in ascending-id order. -/
def canonGraph (g : Graph) : Graph :=
  { objects := sortRecords g.objects
    rootObject := g.rootObject
    rootComment := g.rootComment }

/-- Graph equality: the same records up to table order, the same root. -/
def graphEq (a b : Graph) : Prop :=
  a.objects.Perm b.objects ∧ a.rootObject = b.rootObject
    ∧ a.rootComment = b.rootComment

theorem splitFirstLine_append (t : List Char) :
    ∀ l : List Char, '\n' ∉ l → splitFirstLine (l ++ '\n' :: t) = (l, t)
  | [], _ => by simp [splitFirstLine]
  | c :: l, hnl => by
    rw [List.cons_append, splitFirstLine]
    rw [if_neg (by rintro rfl; exact hnl (List.mem_cons_self _ _))]
    rw [splitFirstLine_append t l fun h => hnl (List.mem_cons_of_mem c h)]

theorem header_no_newline : '\n' ∉ headerChars := by decide

mutual

/-- The parser's recursion measure never exceeds the canonical token
count, so the fuel `parse` supplies is always sufficient. -/
theorem sizeV_le_ser : ∀ v : Value, sizeV v ≤ (serValue v).length
  | .str s => by simp [sizeV, serValue]
  | .ident j cmt => by simp [sizeV, serValue]
  | .dict ps => by
    have := sizeP_le_ser ps
    simp only [sizeV, serValue, List.length_cons, List.length_append]
    simp at this ⊢
    omega
  | .arr es => by
    have := sizeL_le_ser es
    simp only [sizeV, serValue, List.length_cons, List.length_append]
    simp at this ⊢
    omega

/-- Pair-list measure bound. -/
theorem sizeP_le_ser : ∀ ps : List (String × Value),
    sizeP ps ≤ (serPairs ps).length + 1
  | [] => by simp [sizeP, serPairs]
  | (k, v) :: ps => by
    have h1 := sizeV_le_ser v
    have h2 := sizeP_le_ser ps
    simp only [sizeP, serPairs, List.length_cons, List.length_append]
    simp at h1 h2 ⊢
    omega

/-- Element-list measure bound. -/
theorem sizeL_le_ser : ∀ es : List Value,
    sizeL es ≤ (serElems es).length + 1
  | [] => by simp [sizeL, serElems]
  | v :: vs => by
    have h1 := sizeV_le_ser v
    have h2 := sizeL_le_ser vs
    simp only [sizeL, serElems, List.length_cons, List.length_append]
    simp at h1 h2 ⊢
    omega

end

theorem firstDup_eq_none_of_nodup :
    ∀ {l : List String}, l.Nodup → firstDup l = none
  | [], _ => rfl
  | x :: xs, h => by
    rw [List.nodup_cons] at h
    rw [firstDup, if_neg h.1]
    exact firstDup_eq_none_of_nodup h.2

theorem nodup_of_firstDup_eq_none :
    ∀ {l : List String}, firstDup l = none → l.Nodup
  | [], _ => List.nodup_nil
  | x :: xs, h => by
    rw [firstDup] at h
    split at h
    · cases h
    · exact List.nodup_cons.2 ⟨by assumption, nodup_of_firstDup_eq_none h⟩

mutual

/-- Every token of a value's canonical stream is renderable, given
identifier-shaped `Ident`s and renderable comments. -/
theorem serCleanV : ∀ v : Value, identsOkV v = true → cmtsOkV v = true →
    ∀ t ∈ serValue v, tokClean t = true
  | .str s, _, _, t, ht => by
    simp only [serValue, List.mem_singleton] at ht
    subst ht
    unfold strToken
    split
    · rename_i hcond
      simp only [Bool.and_eq_true] at hcond
      simp [tokClean, cmtOk, hcond.1]
    · simp [tokClean, cmtOk]
  | .ident j cmt, hid, hcmt, t, ht => by
    simp only [serValue, List.mem_singleton] at ht
    subst ht
    simp only [identsOkV] at hid
    simp only [cmtsOkV] at hcmt
    simp [tokClean, hex24_bareSafe hid, hcmt]
  | .dict ps, hid, hcmt, t, ht => by
    simp only [serValue, List.mem_cons, List.mem_append,
      List.mem_singleton] at ht
    rcases ht with rfl | h | rfl | h0
    · rfl
    · exact serCleanP ps (by simpa [identsOkV] using hid)
        (by simpa [cmtsOkV] using hcmt) t h
    · rfl
    · exact absurd h0 (List.not_mem_nil t)
  | .arr es, hid, hcmt, t, ht => by
    simp only [serValue, List.mem_cons, List.mem_append,
      List.mem_singleton] at ht
    rcases ht with rfl | h | rfl | h0
    · rfl
    · exact serCleanL es (by simpa [identsOkV] using hid)
        (by simpa [cmtsOkV] using hcmt) t h
    · rfl
    · exact absurd h0 (List.not_mem_nil t)

/-- Cleanliness of a pair list's canonical stream. -/
theorem serCleanP : ∀ ps : List (String × Value), identsOkP ps = true →
    cmtsOkP ps = true → ∀ t ∈ serPairs ps, tokClean t = true
  | [], _, _, t, ht => by simp [serPairs] at ht
  | (k, v) :: ps, hid, hcmt, t, ht => by
    simp only [identsOkP, Bool.and_eq_true] at hid
    simp only [cmtsOkP, Bool.and_eq_true] at hcmt
    simp only [serPairs, List.append_assoc, List.singleton_append,
      List.mem_cons, List.mem_append] at ht
    rcases ht with rfl | rfl | h | rfl | h
    · unfold keyToken
      split
      · rename_i hcond
        simp [tokClean, cmtOk, hcond]
      · simp [tokClean, cmtOk]
    · rfl
    · exact serCleanV v hid.1 hcmt.1 t h
    · rfl
    · exact serCleanP ps hid.2 hcmt.2 t h

/-- Cleanliness of an element list's canonical stream. -/
theorem serCleanL : ∀ es : List Value, identsOkL es = true →
    cmtsOkL es = true → ∀ t ∈ serElems es, tokClean t = true
  | [], _, _, t, ht => by simp [serElems] at ht
  | v :: vs, hid, hcmt, t, ht => by
    simp only [identsOkL, Bool.and_eq_true] at hid
    simp only [cmtsOkL, Bool.and_eq_true] at hcmt
    simp only [serElems, List.append_assoc, List.singleton_append,
      List.mem_cons, List.mem_append] at ht
    rcases ht with h | rfl | h
    · exact serCleanV v hid.1 hcmt.1 t h
    · rfl
    · exact serCleanL vs hid.2 hcmt.2 t h

end

theorem identsOkP_map_recPair : ∀ l : List ObjectRecord,
    (∀ r ∈ l, identsOkP r.fields = true) → identsOkP (l.map recPair) = true
  | [], _ => rfl
  | r :: l, h => by
    simp only [List.map_cons, recPair, identsOkP, identsOkV, Bool.and_eq_true]
    exact ⟨by simp [identsOkP, identsOkV, h r (List.mem_cons_self _ _)],
      identsOkP_map_recPair l fun r2 h2 => h r2 (List.mem_cons_of_mem _ h2)⟩

theorem cmtsOkP_map_recPair : ∀ l : List ObjectRecord,
    (∀ r ∈ l, cmtsOkP r.fields = true) → cmtsOkP (l.map recPair) = true
  | [], _ => rfl
  | r :: l, h => by
    simp only [List.map_cons, recPair, cmtsOkP, cmtsOkV, Bool.and_eq_true]
    exact ⟨by simp [cmtsOkP, cmtsOkV, h r (List.mem_cons_self _ _)],
      cmtsOkP_map_recPair l fun r2 h2 => h r2 (List.mem_cons_of_mem _ h2)⟩

theorem buildRecords_map_recPair : ∀ l : List ObjectRecord,
    buildRecords (l.map recPair) = .ok l
  | [] => rfl
  | r :: l => by
    simp only [List.map_cons, recPair, buildRecords, extractIsa, reduceIte]
    rw [buildRecords_map_recPair l]

theorem not_blocking_mem {g : Graph} (hb : blockingViolations g = [])
    {v : Violation} (hv : v ∈ check g) (hbl : v.blocking = true) : False := by
  have : v ∈ blockingViolations g := List.mem_filter.2 ⟨hv, hbl⟩
  rw [hb] at this
  exact absurd this (List.not_mem_nil v)

theorem malformed_nil_of_blocking {g : Graph}
    (hb : blockingViolations g = []) : malformedViolations g = [] := by
  rw [List.eq_nil_iff_forall_not_mem]
  intro v hv
  obtain ⟨s, rfl, -, -⟩ := (mem_malformedViolations_iff g v).1 hv
  have hvc : Violation.malformedId s ∈ check g := by
    simp only [check, List.mem_append]
    exact Or.inl (Or.inl (Or.inr hv))
  exact not_blocking_mem hb hvc rfl

theorem dangling_nil_of_blocking {g : Graph}
    (hb : blockingViolations g = []) : danglingViolations g = [] := by
  rw [List.eq_nil_iff_forall_not_mem]
  intro v hv
  obtain ⟨a, k, j, rfl, -, -⟩ := (mem_danglingViolations_iff g v).1 hv
  have hvc : Violation.danglingReference a k j ∈ check g := by
    simp only [check, List.mem_append]
    exact Or.inl (Or.inr hv)
  exact not_blocking_mem hb hvc rfl

theorem duplicate_nil_of_blocking {g : Graph}
    (hb : blockingViolations g = []) : duplicateViolations g = [] := by
  rw [List.eq_nil_iff_forall_not_mem]
  intro v hv
  obtain ⟨i, rfl, -⟩ := (mem_duplicateViolations_iff g v).1 hv
  have hvc : Violation.duplicateId i ∈ check g := by
    simp only [check, List.mem_append]
    exact Or.inl (Or.inl (Or.inl hv))
  exact not_blocking_mem hb hvc rfl

theorem keys_hex_of_blocking {g : Graph} (hb : blockingViolations g = []) :
    ∀ r ∈ g.objects, isHex24 r.id = true := by
  intro r hr
  by_contra hne
  have hv : (Violation.malformedId r.id) ∈ malformedViolations g :=
    (mem_malformedViolations_iff g _).2
      ⟨r.id, rfl, Or.inl ⟨r, hr, rfl⟩, by simpa using hne⟩
  rw [malformed_nil_of_blocking hb] at hv
  exact absurd hv (List.not_mem_nil _)

theorem root_hex_of_blocking {g : Graph} (hb : blockingViolations g = []) :
    isHex24 g.rootObject = true := by
  by_contra hne
  have hv : (Violation.malformedId g.rootObject) ∈ malformedViolations g :=
    (mem_malformedViolations_iff g _).2
      ⟨g.rootObject, rfl, Or.inr rfl, by simpa using hne⟩
  rw [malformed_nil_of_blocking hb] at hv
  exact absurd hv (List.not_mem_nil _)

theorem nodup_ids_of_blocking {g : Graph} (hb : blockingViolations g = []) :
    g.ids.Nodup := by
  rw [List.nodup_iff_count_le_one]
  intro a
  by_contra hc
  have hv : (Violation.duplicateId a) ∈ duplicateViolations g :=
    (mem_duplicateViolations_iff g _).2 ⟨a, rfl, by omega⟩
  rw [duplicate_nil_of_blocking hb] at hv
  exact absurd hv (List.not_mem_nil _)

theorem idents_resolve_of_blocking {g : Graph}
    (hb : blockingViolations g = []) :
    ∀ r ∈ g.objects, ∀ k v, (k, v) ∈ r.fields →
      ∀ j ∈ identsInValue v, j ∈ g.ids := by
  intro r hr k v hkv j hj
  by_contra hne
  have hv : (Violation.danglingReference r.id k j) ∈ danglingViolations g :=
    (mem_danglingViolations_iff g _).2
      ⟨r.id, k, j, rfl, ⟨r, hr, rfl, v, hkv, hj⟩, hne⟩
  rw [dangling_nil_of_blocking hb] at hv
  exact absurd hv (List.not_mem_nil _)

theorem mem_identsInPairs_elim {j : String} :
    ∀ {ps : List (String × Value)}, j ∈ identsInPairs ps →
      ∃ k v, (k, v) ∈ ps ∧ j ∈ identsInValue v
  | (k2, v2) :: ps, h => by
    rcases List.mem_append.1 h with h1 | h1
    · exact ⟨k2, v2, List.mem_cons_self _ _, h1⟩
    · obtain ⟨k, v, hkv, hj⟩ := mem_identsInPairs_elim h1
      exact ⟨k, v, List.mem_cons_of_mem _ hkv, hj⟩

mutual

/-- A value whose edge identifiers are all 24-hex-shaped satisfies
`identsOkV`. -/
theorem identsOkV_of_hex : ∀ v : Value,
    (∀ j ∈ identsInValue v, isHex24 j = true) → identsOkV v = true
  | .str _, _ => rfl
  | .ident j cmt, h => by
    simpa [identsOkV] using h j (by simp [identsInValue])
  | .dict ps, h =>
    identsOkP_of_hex ps fun j hj => h j (by simpa [identsInValue] using hj)
  | .arr es, h =>
    identsOkL_of_hex es fun j hj => h j (by simpa [identsInValue] using hj)

/-- Pair-list form. -/
theorem identsOkP_of_hex : ∀ ps : List (String × Value),
    (∀ j ∈ identsInPairs ps, isHex24 j = true) → identsOkP ps = true
  | [], _ => rfl
  | (k, v) :: ps, h => by
    simp only [identsOkP, Bool.and_eq_true]
    exact ⟨identsOkV_of_hex v fun j hj =>
        h j (by simp only [identsInPairs, List.mem_append]; exact Or.inl hj),
      identsOkP_of_hex ps fun j hj =>
        h j (by simp only [identsInPairs, List.mem_append]; exact Or.inr hj)⟩

/-- Element-list form. -/
theorem identsOkL_of_hex : ∀ es : List Value,
    (∀ j ∈ identsInList es, isHex24 j = true) → identsOkL es = true
  | [], _ => rfl
  | v :: vs, h => by
    simp only [identsOkL, Bool.and_eq_true]
    exact ⟨identsOkV_of_hex v fun j hj =>
        h j (by simp only [identsInList, List.mem_append]; exact Or.inl hj),
      identsOkL_of_hex vs fun j hj =>
        h j (by simp only [identsInList, List.mem_append]; exact Or.inr hj)⟩

end

theorem fieldsOk_of_blocking {g : Graph} (hb : blockingViolations g = []) :
    ∀ r ∈ g.objects, identsOkP r.fields = true := by
  intro r hr
  apply identsOkP_of_hex
  intro j hj
  obtain ⟨k, v, hkv, hjv⟩ := mem_identsInPairs_elim hj
  have hjmem : j ∈ g.ids := idents_resolve_of_blocking hb r hr k v hkv j hjv
  obtain ⟨r2, hr2, rfl⟩ := List.mem_map.1 hjmem
  exact keys_hex_of_blocking hb r2 hr2

/-- The graph-level round trip: on any graph whose identifiers are
24-hex-shaped, whose comments are renderable and whose ids are unique,
parsing the canonical serialization succeeds and returns the canonical
form of the graph. -/
theorem parse_serialize (g : Graph)
    (hroot : isHex24 g.rootObject = true)
    (hids : ∀ r ∈ g.objects, identsOkP r.fields = true)
    (hcmts : ∀ r ∈ g.objects, cmtsOkP r.fields = true)
    (hrc : cmtOk g.rootComment = true)
    (hnd : g.ids.Nodup) :
    parse (serialize g) = .ok (canonGraph g) := by
  have hperm : List.Perm (sortRecords g.objects) g.objects :=
    List.perm_insertionSort _ _
  have hsmem : ∀ r ∈ sortRecords g.objects, r ∈ g.objects :=
    fun r hr => hperm.mem_iff.1 hr
  have hidsR : identsOkV (rootValue g) = true := by
    have h1 : identsOkP ((sortRecords g.objects).map recPair) = true :=
      identsOkP_map_recPair _ fun r hr => hids r (hsmem r hr)
    simp [rootValue, identsOkV, identsOkP, h1, hroot]
  have hcmtR : cmtsOkV (rootValue g) = true := by
    have h1 : cmtsOkP ((sortRecords g.objects).map recPair) = true :=
      cmtsOkP_map_recPair _ fun r hr => hcmts r (hsmem r hr)
    simp [rootValue, cmtsOkV, cmtsOkP, h1, hrc]
  have hclean : ∀ t ∈ serValue (rootValue g), tokClean t = true :=
    serCleanV _ hidsR hcmtR
  have hrt := rtV (rootValue g) hidsR
    ((serValue (rootValue g)).length + 1)
    (by have := sizeV_le_ser (rootValue g); omega) []
  rw [List.append_nil] at hrt
  have hnds : ((sortRecords g.objects).map (fun r => r.id)).Nodup :=
    ((hperm.map fun r => r.id).nodup_iff).2 (by simpa [Graph.ids] using hnd)
  simp only [serialize, parse, serGraphTokens]
  rw [splitFirstLine_append _ _ header_no_newline]
  rw [if_pos rfl]
  simp only [renderTokens]
  rw [tokenizeRaw_render _ (flatMap_rawOf_clean hclean)]
  simp only [attach_rawOf, hrt]
  simp only [buildGraph, rootValue, lookupPairs, reduceIte]
  rw [if_neg (by decide)]
  have hfd : firstDup ((sortRecords g.objects).map fun x => x.id) = none :=
    firstDup_eq_none_of_nodup (by simpa using hnds)
  simp only [buildRecords_map_recPair, hfd]
  rfl

/-- C9: parsing requires the fixed magic header as the first line — on
any input whose first line differs from it in any way (in particular any
input whose first line, delimited by the first newline, is a blank or
altered line), `parse` fails with a fatal `ParseError` and produces no
graph. -/
theorem claim_C9_magic_header_required :
    (∀ cs : List Char, (splitFirstLine cs).1 ≠ headerChars →
        parse cs = .error .missingHeader)
      ∧ ∀ l t : List Char, '\n' ∉ l → l ≠ headerChars →
          parse (l ++ '\n' :: t) = .error .missingHeader := by
  constructor
  · intro cs h
    unfold parse
    exact if_neg h
  · intro l t hnl hne
    unfold parse
    rw [splitFirstLine_append t l hnl]
    exact if_neg hne

theorem claim_C9_witness :
    (splitFirstLine ('\n' :: "x".toList)).1 ≠ headerChars
      ∧ parse ('\n' :: "x".toList) = .error .missingHeader :=
  ⟨by decide, claim_C9_magic_header_required.1 _ (by decide)⟩

/-- Cleanliness of a raw token's comment content. -/
def rawCmtOk : RawToken → Bool
  | .comment s => noClose s.data
  | _ => true

/-- Cleanliness of an attached token's annotation. -/
def tokCmtOk : Token → Bool
  | .bare _ cmt => cmtOk cmt
  | .str _ cmt => cmtOk cmt
  | _ => true

theorem exceptMap_ok {α β γ : Type} {e : Except α β} {f : β → γ} {c : γ}
    (h : e.map f = .ok c) : ∃ b, e = .ok b ∧ c = f b := by
  cases e with
  | error a => simp [Except.map] at h
  | ok b => exact ⟨b, rfl, by simpa [Except.map] using h.symm⟩

/-- The tokenizer's comment bodies never contain the closing digraph:
`readCmt` stops at the first one. -/
theorem readCmt_clean : ∀ (l : List Char) {s r : List Char},
    readCmt l = some (s, r) →
      noClose s = true ∧ (s ≠ [] → s.head? = l.head?)
  | [], s, r, h => by simp [readCmt] at h
  | c :: rest, s, r, h => by
    rw [readCmt.eq_def] at h
    simp only [] at h
    split at h
    · rename_i hc
      split at h
      · cases h
        exact ⟨rfl, fun hne => absurd rfl hne⟩
      · rename_i hnsl
        simp only [Option.map_eq_some'] at h
        obtain ⟨⟨s1, r1⟩, hrec, heq⟩ := h
        cases heq
        obtain ⟨hnc, hhd⟩ := readCmt_clean rest hrec
        refine ⟨?_, fun _ => rfl⟩
        cases s1 with
        | nil => rfl
        | cons d s1' =>
          cases rest with
          | nil => simp [readCmt] at hrec
          | cons e t =>
            have hde : d = e := by
              have := hhd (by simp)
              simpa using this
            subst hde
            have hdn : ¬d = '/' := by
              intro hEq
              subst hEq
              exact hnsl t rfl
            subst hc
            simp [noClose, hdn, hnc]
    · rename_i hcne
      simp only [Option.map_eq_some'] at h
      obtain ⟨⟨s1, r1⟩, hrec, heq⟩ := h
      cases heq
      obtain ⟨hnc, _⟩ := readCmt_clean rest hrec
      refine ⟨?_, fun _ => rfl⟩
      cases s1 with
      | nil => rfl
      | cons d s1' => simp [noClose, hcne, hnc]

theorem consMap_cmtOk {X : RawToken}
    {e : Except ParseError (List RawToken)} {ts : List RawToken}
    (h : e.map (X :: ·) = .ok ts) (hX : rawCmtOk X = true)
    (he : ∀ ts2, e = .ok ts2 → ∀ t ∈ ts2, rawCmtOk t = true) :
    ∀ t ∈ ts, rawCmtOk t = true := by
  obtain ⟨ts2, hr, rfl⟩ := exceptMap_ok h
  intro t ht
  rcases List.mem_cons.1 ht with rfl | ht2
  · exact hX
  · exact he ts2 hr t ht2

theorem tokBranch_cmtOk
    (recur : List Char → Except ParseError (List RawToken))
    (hrec : ∀ l ts, recur l = .ok ts → ∀ t ∈ ts, rawCmtOk t = true)
    (c : Char) (rest : List Char) {ts : List RawToken}
    (h : tokBranch recur c rest = .ok ts) :
    ∀ t ∈ ts, rawCmtOk t = true := by
  unfold tokBranch at h
  by_cases h1 : isWsChar c = true
  · rw [if_pos h1] at h
    exact hrec rest ts h
  rw [if_neg h1] at h
  by_cases h2 : c = '\x7b'
  · rw [if_pos h2] at h
    exact consMap_cmtOk h rfl (hrec rest)
  rw [if_neg h2] at h
  by_cases h3 : c = '\x7d'
  · rw [if_pos h3] at h
    exact consMap_cmtOk h rfl (hrec rest)
  rw [if_neg h3] at h
  by_cases h4 : c = '('
  · rw [if_pos h4] at h
    exact consMap_cmtOk h rfl (hrec rest)
  rw [if_neg h4] at h
  by_cases h5 : c = ')'
  · rw [if_pos h5] at h
    exact consMap_cmtOk h rfl (hrec rest)
  rw [if_neg h5] at h
  by_cases h6 : c = '='
  · rw [if_pos h6] at h
    exact consMap_cmtOk h rfl (hrec rest)
  rw [if_neg h6] at h
  by_cases h7 : c = ';'
  · rw [if_pos h7] at h
    exact consMap_cmtOk h rfl (hrec rest)
  rw [if_neg h7] at h
  by_cases h8 : c = ','
  · rw [if_pos h8] at h
    exact consMap_cmtOk h rfl (hrec rest)
  rw [if_neg h8] at h
  by_cases h9 : c = '"'
  · rw [if_pos h9] at h
    cases hrs : readStr rest with
    | none => rw [hrs] at h; simp at h
    | some p =>
      rw [hrs] at h
      exact consMap_cmtOk h rfl (hrec p.2)
  rw [if_neg h9] at h
  by_cases h10 : c = '/'
  · rw [if_pos h10] at h
    split at h
    · rename_i rest0 rest2
      cases hrc : readCmt rest2 with
      | none => rw [hrc] at h; simp at h
      | some p =>
        rw [hrc] at h
        exact consMap_cmtOk h
          (by simpa [rawCmtOk] using (readCmt_clean _ hrc).1) (hrec p.2)
    · simp at h
  rw [if_neg h10] at h
  by_cases h11 : bareChar c = true
  · rw [if_pos h11] at h
    exact consMap_cmtOk h rfl (hrec _)
  · rw [if_neg h11] at h
    simp at h

/-- Every comment token the tokenizer emits has a renderable body. -/
theorem tokenizeF_cmtOk : ∀ (fuel : Nat) (cs : List Char) {ts : List RawToken},
    tokenizeF fuel cs = .ok ts → ∀ t ∈ ts, rawCmtOk t = true
  | 0, [], ts, h => by
    cases h
    intro t ht
    cases ht
  | 0, _ :: _, ts, h => by simp [tokenizeF] at h
  | fuel + 1, [], ts, h => by
    cases h
    intro t ht
    cases ht
  | fuel + 1, c :: rest, ts, h => by
    rw [tokenizeF] at h
    exact tokBranch_cmtOk _ (fun l ts2 h2 => tokenizeF_cmtOk fuel l h2) c rest h

/-- Attachment carries comment cleanliness onto the annotations. -/
theorem attach_cmtOk : ∀ rs : List RawToken,
    (∀ r ∈ rs, rawCmtOk r = true) → ∀ t ∈ attach rs, tokCmtOk t = true
  | [], _, t, ht => by cases ht
  | .bare s :: .comment c :: ts, h, t, ht => by
    rcases List.mem_cons.1 ht with rfl | ht2
    · simpa [tokCmtOk, cmtOk, rawCmtOk] using
        h (.comment c) (List.mem_cons_of_mem _ (List.mem_cons_self _ _))
    · exact attach_cmtOk ts
        (fun r hr => h r (List.mem_cons_of_mem _ (List.mem_cons_of_mem _ hr)))
        t ht2
  | .str s :: .comment c :: ts, h, t, ht => by
    rcases List.mem_cons.1 ht with rfl | ht2
    · simpa [tokCmtOk, cmtOk, rawCmtOk] using
        h (.comment c) (List.mem_cons_of_mem _ (List.mem_cons_self _ _))
    · exact attach_cmtOk ts
        (fun r hr => h r (List.mem_cons_of_mem _ (List.mem_cons_of_mem _ hr)))
        t ht2
  | .bare s :: [], h, t, ht => by
    rcases List.mem_cons.1 ht with rfl | ht2
    · rfl
    · cases ht2
  | .bare s :: .bare s2 :: ts, h, t, ht => by
    rcases List.mem_cons.1 ht with rfl | ht2
    · rfl
    · exact attach_cmtOk _ (fun r hr => h r (List.mem_cons_of_mem _ hr)) t ht2
  | .bare s :: .str s2 :: ts, h, t, ht => by
    rcases List.mem_cons.1 ht with rfl | ht2
    · rfl
    · exact attach_cmtOk _ (fun r hr => h r (List.mem_cons_of_mem _ hr)) t ht2
  | .bare s :: .lbrace :: ts, h, t, ht => by
    rcases List.mem_cons.1 ht with rfl | ht2
    · rfl
    · exact attach_cmtOk _ (fun r hr => h r (List.mem_cons_of_mem _ hr)) t ht2
  | .bare s :: .rbrace :: ts, h, t, ht => by
    rcases List.mem_cons.1 ht with rfl | ht2
    · rfl
    · exact attach_cmtOk _ (fun r hr => h r (List.mem_cons_of_mem _ hr)) t ht2
  | .bare s :: .lparen :: ts, h, t, ht => by
    rcases List.mem_cons.1 ht with rfl | ht2
    · rfl
    · exact attach_cmtOk _ (fun r hr => h r (List.mem_cons_of_mem _ hr)) t ht2
  | .bare s :: .rparen :: ts, h, t, ht => by
    rcases List.mem_cons.1 ht with rfl | ht2
    · rfl
    · exact attach_cmtOk _ (fun r hr => h r (List.mem_cons_of_mem _ hr)) t ht2
  | .bare s :: .equals :: ts, h, t, ht => by
    rcases List.mem_cons.1 ht with rfl | ht2
    · rfl
    · exact attach_cmtOk _ (fun r hr => h r (List.mem_cons_of_mem _ hr)) t ht2
  | .bare s :: .semi :: ts, h, t, ht => by
    rcases List.mem_cons.1 ht with rfl | ht2
    · rfl
    · exact attach_cmtOk _ (fun r hr => h r (List.mem_cons_of_mem _ hr)) t ht2
  | .bare s :: .comma :: ts, h, t, ht => by
    rcases List.mem_cons.1 ht with rfl | ht2
    · rfl
    · exact attach_cmtOk _ (fun r hr => h r (List.mem_cons_of_mem _ hr)) t ht2
  | .str s :: [], h, t, ht => by
    rcases List.mem_cons.1 ht with rfl | ht2
    · rfl
    · cases ht2
  | .str s :: .bare s2 :: ts, h, t, ht => by
    rcases List.mem_cons.1 ht with rfl | ht2
    · rfl
    · exact attach_cmtOk _ (fun r hr => h r (List.mem_cons_of_mem _ hr)) t ht2
  | .str s :: .str s2 :: ts, h, t, ht => by
    rcases List.mem_cons.1 ht with rfl | ht2
    · rfl
    · exact attach_cmtOk _ (fun r hr => h r (List.mem_cons_of_mem _ hr)) t ht2
  | .str s :: .lbrace :: ts, h, t, ht => by
    rcases List.mem_cons.1 ht with rfl | ht2
    · rfl
    · exact attach_cmtOk _ (fun r hr => h r (List.mem_cons_of_mem _ hr)) t ht2
  | .str s :: .rbrace :: ts, h, t, ht => by
    rcases List.mem_cons.1 ht with rfl | ht2
    · rfl
    · exact attach_cmtOk _ (fun r hr => h r (List.mem_cons_of_mem _ hr)) t ht2
  | .str s :: .lparen :: ts, h, t, ht => by
    rcases List.mem_cons.1 ht with rfl | ht2
    · rfl
    · exact attach_cmtOk _ (fun r hr => h r (List.mem_cons_of_mem _ hr)) t ht2
  | .str s :: .rparen :: ts, h, t, ht => by
    rcases List.mem_cons.1 ht with rfl | ht2
    · rfl
    · exact attach_cmtOk _ (fun r hr => h r (List.mem_cons_of_mem _ hr)) t ht2
  | .str s :: .equals :: ts, h, t, ht => by
    rcases List.mem_cons.1 ht with rfl | ht2
    · rfl
    · exact attach_cmtOk _ (fun r hr => h r (List.mem_cons_of_mem _ hr)) t ht2
  | .str s :: .semi :: ts, h, t, ht => by
    rcases List.mem_cons.1 ht with rfl | ht2
    · rfl
    · exact attach_cmtOk _ (fun r hr => h r (List.mem_cons_of_mem _ hr)) t ht2
  | .str s :: .comma :: ts, h, t, ht => by
    rcases List.mem_cons.1 ht with rfl | ht2
    · rfl
    · exact attach_cmtOk _ (fun r hr => h r (List.mem_cons_of_mem _ hr)) t ht2
  | .comment c :: ts, h, t, ht =>
    attach_cmtOk ts (fun r hr => h r (List.mem_cons_of_mem _ hr)) t ht
  | .lbrace :: ts, h, t, ht => by
    rcases List.mem_cons.1 ht with rfl | ht2
    · rfl
    · exact attach_cmtOk _ (fun r hr => h r (List.mem_cons_of_mem _ hr)) t ht2
  | .rbrace :: ts, h, t, ht => by
    rcases List.mem_cons.1 ht with rfl | ht2
    · rfl
    · exact attach_cmtOk _ (fun r hr => h r (List.mem_cons_of_mem _ hr)) t ht2
  | .lparen :: ts, h, t, ht => by
    rcases List.mem_cons.1 ht with rfl | ht2
    · rfl
    · exact attach_cmtOk _ (fun r hr => h r (List.mem_cons_of_mem _ hr)) t ht2
  | .rparen :: ts, h, t, ht => by
    rcases List.mem_cons.1 ht with rfl | ht2
    · rfl
    · exact attach_cmtOk _ (fun r hr => h r (List.mem_cons_of_mem _ hr)) t ht2
  | .equals :: ts, h, t, ht => by
    rcases List.mem_cons.1 ht with rfl | ht2
    · rfl
    · exact attach_cmtOk _ (fun r hr => h r (List.mem_cons_of_mem _ hr)) t ht2
  | .semi :: ts, h, t, ht => by
    rcases List.mem_cons.1 ht with rfl | ht2
    · rfl
    · exact attach_cmtOk _ (fun r hr => h r (List.mem_cons_of_mem _ hr)) t ht2
  | .comma :: ts, h, t, ht => by
    rcases List.mem_cons.1 ht with rfl | ht2
    · rfl
    · exact attach_cmtOk _ (fun r hr => h r (List.mem_cons_of_mem _ hr)) t ht2

theorem parseKey_sub {ts : List Token} {k : String} {r : List Token}
    (h : parseKey ts = .ok (k, r)) : ∀ t ∈ r, t ∈ ts := by
  unfold parseKey at h
  split at h
  · cases h
    exact fun t ht => List.mem_cons_of_mem _ ht
  · cases h
    exact fun t ht => List.mem_cons_of_mem _ ht
  · exact Except.noConfusion h

theorem expectTok_sub {t0 : Token} {ts r : List Token}
    (h : expectTok t0 ts = .ok r) : ∀ t ∈ r, t ∈ ts := by
  unfold expectTok at h
  split at h
  · split at h
    · cases h
      exact fun t ht => List.mem_cons_of_mem _ ht
    · exact Except.noConfusion h
  · exact Except.noConfusion h

mutual

/-- The value parser only builds `Ident`s out of identifier-shaped
barewords, and only annotates them with comments of its input tokens; it
consumes a prefix of the stream. -/
theorem pcV : ∀ (fuel : Nat) (ts : List Token) (v : Value) (rest : List Token),
    parseValue fuel ts = .ok (v, rest) →
    (∀ t ∈ ts, tokCmtOk t = true) →
    identsOkV v = true ∧ cmtsOkV v = true ∧ ∀ t ∈ rest, t ∈ ts
  | 0, ts, v, rest, h, _ => by simp [parseValue] at h
  | fuel + 1, ts, v, rest, h, hc => by
    rw [parseValue] at h
    unfold parseValueBody at h
    simp only [] at h
    split at h
    · rename_i rest1
      cases hp : parsePairs fuel rest1 with
      | error e => rw [hp] at h; exact Except.noConfusion h
      | ok pr =>
        rw [hp] at h
        simp only [] at h
        cases h
        obtain ⟨hid, hcm, hsub⟩ := pcP fuel rest1 pr.1 pr.2 hp
          fun t ht => hc t (List.mem_cons_of_mem _ ht)
        exact ⟨by simpa [identsOkV] using hid, by simpa [cmtsOkV] using hcm,
          fun t ht => List.mem_cons_of_mem _ (hsub t ht)⟩
    · rename_i rest1
      cases hp : parseElems fuel rest1 with
      | error e => rw [hp] at h; exact Except.noConfusion h
      | ok er =>
        rw [hp] at h
        simp only [] at h
        cases h
        obtain ⟨hid, hcm, hsub⟩ := pcL fuel rest1 er.1 er.2 hp
          fun t ht => hc t (List.mem_cons_of_mem _ ht)
        exact ⟨by simpa [identsOkV] using hid, by simpa [cmtsOkV] using hcm,
          fun t ht => List.mem_cons_of_mem _ (hsub t ht)⟩
    · rename_i s cmt rest1
      split at h
      · cases h
        rename_i hhex
        refine ⟨by simpa [identsOkV] using hhex, ?_,
          fun t ht => List.mem_cons_of_mem _ ht⟩
        have := hc (.bare s cmt) (List.mem_cons_self _ _)
        simpa [cmtsOkV, tokCmtOk] using this
      · cases h
        exact ⟨rfl, rfl, fun t ht => List.mem_cons_of_mem _ ht⟩
    · cases h
      exact ⟨rfl, rfl, fun t ht => List.mem_cons_of_mem _ ht⟩
    · exact Except.noConfusion h

/-- Pair-list form of `pcV`. -/
theorem pcP : ∀ (fuel : Nat) (ts : List Token) (ps : List (String × Value))
    (rest : List Token),
    parsePairs fuel ts = .ok (ps, rest) →
    (∀ t ∈ ts, tokCmtOk t = true) →
    identsOkP ps = true ∧ cmtsOkP ps = true ∧ ∀ t ∈ rest, t ∈ ts
  | 0, ts, ps, rest, h, _ => by simp [parsePairs] at h
  | fuel + 1, ts, ps, rest, h, hc => by
    rw [parsePairs] at h
    unfold parsePairsBody at h
    simp only [] at h
    split at h
    · exact Except.noConfusion h
    rename_i t rest1
    split at h
    · cases h
      exact ⟨rfl, rfl, fun t2 ht2 => List.mem_cons_of_mem _ ht2⟩
    cases hpk : parseKey (t :: rest1) with
    | error e => rw [hpk] at h; exact Except.noConfusion h
    | ok kr =>
      rw [hpk] at h
      simp only [] at h
      cases het : expectTok .equals kr.2 with
      | error e => rw [het] at h; exact Except.noConfusion h
      | ok rest2 =>
        rw [het] at h
        simp only [] at h
        cases hpv : parseValue fuel rest2 with
        | error e => rw [hpv] at h; exact Except.noConfusion h
        | ok vr =>
          rw [hpv] at h
          simp only [] at h
          cases het2 : expectTok .semi vr.2 with
          | error e => rw [het2] at h; exact Except.noConfusion h
          | ok rest4 =>
            rw [het2] at h
            simp only [] at h
            cases hpp : parsePairs fuel rest4 with
            | error e => rw [hpp] at h; exact Except.noConfusion h
            | ok pr =>
              rw [hpp] at h
              simp only [] at h
              cases h
              have hsub1 : ∀ t2 ∈ kr.2, t2 ∈ t :: rest1 := parseKey_sub hpk
              have hsub2 : ∀ t2 ∈ rest2, t2 ∈ kr.2 := expectTok_sub het
              have hcl2 : ∀ t2 ∈ rest2, tokCmtOk t2 = true :=
                fun t2 ht2 => hc t2 (hsub1 t2 (hsub2 t2 ht2))
              obtain ⟨hidv, hcmv, hsubv⟩ :=
                pcV fuel rest2 vr.1 vr.2 hpv hcl2
              have hsub3 : ∀ t2 ∈ rest4, t2 ∈ vr.2 := expectTok_sub het2
              have hcl4 : ∀ t2 ∈ rest4, tokCmtOk t2 = true :=
                fun t2 ht2 => hcl2 t2 (hsubv t2 (hsub3 t2 ht2))
              obtain ⟨hidp, hcmp, hsubp⟩ :=
                pcP fuel rest4 pr.1 pr.2 hpp hcl4
              refine ⟨by simp [identsOkP, hidv, hidp],
                by simp [cmtsOkP, hcmv, hcmp], ?_⟩
              intro t2 ht2
              exact hsub1 t2 (hsub2 t2 (hsubv t2 (hsub3 t2 (hsubp t2 ht2))))

/-- Element-list form of `pcV`. -/
theorem pcL : ∀ (fuel : Nat) (ts : List Token) (es : List Value)
    (rest : List Token),
    parseElems fuel ts = .ok (es, rest) →
    (∀ t ∈ ts, tokCmtOk t = true) →
    identsOkL es = true ∧ cmtsOkL es = true ∧ ∀ t ∈ rest, t ∈ ts
  | 0, ts, es, rest, h, _ => by simp [parseElems] at h
  | fuel + 1, ts, es, rest, h, hc => by
    rw [parseElems] at h
    unfold parseElemsBody at h
    simp only [] at h
    split at h
    · exact Except.noConfusion h
    rename_i t rest1
    split at h
    · cases h
      exact ⟨rfl, rfl, fun t2 ht2 => List.mem_cons_of_mem _ ht2⟩
    cases hpv : parseValue fuel (t :: rest1) with
    | error e => rw [hpv] at h; exact Except.noConfusion h
    | ok vr =>
      rw [hpv] at h
      simp only [] at h
      cases het : expectTok .comma vr.2 with
      | error e => rw [het] at h; exact Except.noConfusion h
      | ok rest2 =>
        rw [het] at h
        simp only [] at h
        cases hpe : parseElems fuel rest2 with
        | error e => rw [hpe] at h; exact Except.noConfusion h
        | ok er =>
          rw [hpe] at h
          simp only [] at h
          cases h
          obtain ⟨hidv, hcmv, hsubv⟩ := pcV fuel (t :: rest1) vr.1 vr.2 hpv hc
          have hsub2 : ∀ t2 ∈ rest2, t2 ∈ vr.2 := expectTok_sub het
          have hcl2 : ∀ t2 ∈ rest2, tokCmtOk t2 = true :=
            fun t2 ht2 => hc t2 (hsubv t2 (hsub2 t2 ht2))
          obtain ⟨hide, hcme, hsube⟩ := pcL fuel rest2 er.1 er.2 hpe hcl2
          refine ⟨by simp [identsOkL, hidv, hide],
            by simp [cmtsOkL, hcmv, hcme], ?_⟩
          intro t2 ht2
          exact hsubv t2 (hsub2 t2 (hsube t2 ht2))

end

theorem lookupPairs_mem {k : String} {w : Value} :
    ∀ {ps : List (String × Value)}, lookupPairs k ps = some w →
      ∃ k2, (k2, w) ∈ ps
  | [], h => by simp [lookupPairs] at h
  | (k2, v) :: ps, h => by
    rw [lookupPairs] at h
    split at h
    · cases h
      exact ⟨k2, List.mem_cons_self _ _⟩
    · obtain ⟨k3, hk3⟩ := lookupPairs_mem h
      exact ⟨k3, List.mem_cons_of_mem _ hk3⟩

theorem identsOkP_mem {k : String} {w : Value} :
    ∀ {ps : List (String × Value)}, identsOkP ps = true → (k, w) ∈ ps →
      identsOkV w = true
  | (k2, v) :: ps, hok, hmem => by
    simp only [identsOkP, Bool.and_eq_true] at hok
    rcases List.mem_cons.1 hmem with heq | hmem2
    · cases heq
      exact hok.1
    · exact identsOkP_mem hok.2 hmem2

theorem cmtsOkP_mem {k : String} {w : Value} :
    ∀ {ps : List (String × Value)}, cmtsOkP ps = true → (k, w) ∈ ps →
      cmtsOkV w = true
  | (k2, v) :: ps, hok, hmem => by
    simp only [cmtsOkP, Bool.and_eq_true] at hok
    rcases List.mem_cons.1 hmem with heq | hmem2
    · cases heq
      exact hok.1
    · exact cmtsOkP_mem hok.2 hmem2

theorem identsOkP_of_memV :
    ∀ {ps : List (String × Value)},
      (∀ k w, (k, w) ∈ ps → identsOkV w = true) → identsOkP ps = true
  | [], _ => rfl
  | (k, v) :: ps, h => by
    simp only [identsOkP, Bool.and_eq_true]
    exact ⟨h k v (List.mem_cons_self _ _),
      identsOkP_of_memV fun k2 w hkw => h k2 w (List.mem_cons_of_mem _ hkw)⟩

theorem cmtsOkP_of_memV :
    ∀ {ps : List (String × Value)},
      (∀ k w, (k, w) ∈ ps → cmtsOkV w = true) → cmtsOkP ps = true
  | [], _ => rfl
  | (k, v) :: ps, h => by
    simp only [cmtsOkP, Bool.and_eq_true]
    exact ⟨h k v (List.mem_cons_self _ _),
      cmtsOkP_of_memV fun k2 w hkw => h k2 w (List.mem_cons_of_mem _ hkw)⟩

theorem extractIsa_sub {p : String × List (String × Value)} :
    ∀ {fs : List (String × Value)}, extractIsa fs = some p →
      ∀ kv ∈ p.2, kv ∈ fs
  | [], h => by simp [extractIsa] at h
  | (k, v) :: fs, h => by
    rw [extractIsa.eq_def] at h
    simp only [] at h
    split at h
    · cases v with
      | str s =>
        cases h
        exact fun kv hkv => List.mem_cons_of_mem _ hkv
      | ident j c => exact Option.noConfusion h
      | dict ps2 => exact Option.noConfusion h
      | arr es => exact Option.noConfusion h
    · simp only [Option.map_eq_some'] at h
      obtain ⟨p2, hp2, heq⟩ := h
      subst heq
      intro kv hkv
      rcases List.mem_cons.1 hkv with rfl | hkv2
      · exact List.mem_cons_self _ _
      · exact List.mem_cons_of_mem _ (extractIsa_sub hp2 kv hkv2)

theorem buildRecords_mem :
    ∀ {ops : List (String × Value)} {rs : List ObjectRecord},
      buildRecords ops = .ok rs → ∀ r ∈ rs,
        ∃ k fs isa, (k, Value.dict fs) ∈ ops
          ∧ extractIsa fs = some (isa, r.fields)
  | [], rs, h, r, hr => by
    cases h
    cases hr
  | (k, v) :: ps, rs, h, r, hr => by
    rw [buildRecords.eq_def] at h
    simp only [] at h
    cases v with
    | str s => exact Except.noConfusion h
    | ident j c => exact Except.noConfusion h
    | arr es => exact Except.noConfusion h
    | dict fs =>
      simp only [] at h
      cases hp : extractIsa fs with
      | none => rw [hp] at h; exact Except.noConfusion h
      | some p =>
        rw [hp] at h
        simp only [] at h
        cases hbr : buildRecords ps with
        | error e => rw [hbr] at h; exact Except.noConfusion h
        | ok rs2 =>
          rw [hbr] at h
          simp only [] at h
          cases h
          rcases List.mem_cons.1 hr with rfl | hr2
          · exact ⟨k, fs, p.1, List.mem_cons_self _ _, hp⟩
          · obtain ⟨k2, fs2, isa2, hmem, hex⟩ := buildRecords_mem hbr r hr2
            exact ⟨k2, fs2, isa2, List.mem_cons_of_mem _ hmem, hex⟩

/-- The graph builder's output inherits every parse-time invariant:
hex-shaped root, hex-shaped edge identifiers, renderable comments, unique
record ids. -/
theorem buildGraph_props {v : Value} {g : Graph} (hbg : buildGraph v = .ok g)
    (hid : identsOkV v = true) (hcm : cmtsOkV v = true) :
    isHex24 g.rootObject = true
      ∧ (∀ r ∈ g.objects, identsOkP r.fields = true)
      ∧ (∀ r ∈ g.objects, cmtsOkP r.fields = true)
      ∧ cmtOk g.rootComment = true ∧ g.ids.Nodup := by
  unfold buildGraph at hbg
  cases v with
  | str s => exact Except.noConfusion hbg
  | ident j c => exact Except.noConfusion hbg
  | arr es => exact Except.noConfusion hbg
  | dict ps =>
  simp only [] at hbg
  cases hobj : lookupPairs "objects" ps with
  | none => rw [hobj] at hbg; exact Except.noConfusion hbg
  | some vo =>
  rw [hobj] at hbg
  cases vo with
  | str s => exact Except.noConfusion hbg
  | ident j c => exact Except.noConfusion hbg
  | arr es => exact Except.noConfusion hbg
  | dict ops =>
  cases hroot : lookupPairs "rootObject" ps with
  | none => rw [hroot] at hbg; exact Except.noConfusion hbg
  | some vr =>
  rw [hroot] at hbg
  cases vr with
  | str s => exact Except.noConfusion hbg
  | dict ps2 => exact Except.noConfusion hbg
  | arr es => exact Except.noConfusion hbg
  | ident root cmt =>
  simp only [] at hbg
  have hidp : identsOkP ps = true := by simpa [identsOkV] using hid
  have hcmp : cmtsOkP ps = true := by simpa [cmtsOkV] using hcm
  obtain ⟨ko, hko⟩ := lookupPairs_mem hobj
  have hidops : identsOkP ops = true := by
    simpa [identsOkV] using identsOkP_mem hidp hko
  have hcmops : cmtsOkP ops = true := by
    simpa [cmtsOkV] using cmtsOkP_mem hcmp hko
  obtain ⟨kr, hkr⟩ := lookupPairs_mem hroot
  have hidroot : isHex24 root = true := by
    simpa [identsOkV] using identsOkP_mem hidp hkr
  have hcmroot : cmtOk cmt = true := by
    simpa [cmtsOkV] using cmtsOkP_mem hcmp hkr
  cases hbr : buildRecords ops with
  | error e => rw [hbr] at hbg; exact Except.noConfusion hbg
  | ok rs =>
    rw [hbr] at hbg
    simp only [] at hbg
    split at hbg
    · exact Except.noConfusion hbg
    rename_i hfd
    cases hbg
    refine ⟨hidroot, ?_, ?_, hcmroot, ?_⟩
    · intro r hr
      obtain ⟨k2, fs, isa, hmem, hex⟩ := buildRecords_mem hbr r hr
      have hfs : identsOkP fs = true := by
        simpa [identsOkV] using identsOkP_mem hidops hmem
      have hsub := extractIsa_sub hex
      exact identsOkP_of_memV fun k3 w hkw =>
        identsOkP_mem hfs (hsub (k3, w) hkw)
    · intro r hr
      obtain ⟨k2, fs, isa, hmem, hex⟩ := buildRecords_mem hbr r hr
      have hfs : cmtsOkP fs = true := by
        simpa [cmtsOkV] using cmtsOkP_mem hcmops hmem
      have hsub := extractIsa_sub hex
      exact cmtsOkP_of_memV fun k3 w hkw =>
        cmtsOkP_mem hfs (hsub (k3, w) hkw)
    · simpa [Graph.ids] using nodup_of_firstDup_eq_none hfd

/-- Every graph `parse` returns satisfies the serializability
invariants. -/
theorem parse_props {x : List Char} {g : Graph} (h : parse x = .ok g) :
    isHex24 g.rootObject = true
      ∧ (∀ r ∈ g.objects, identsOkP r.fields = true)
      ∧ (∀ r ∈ g.objects, cmtsOkP r.fields = true)
      ∧ cmtOk g.rootComment = true ∧ g.ids.Nodup := by
  unfold parse at h
  split at h
  case isFalse => exact Except.noConfusion h
  cases htok : tokenizeRaw (splitFirstLine x).2 with
  | error e => rw [htok] at h; exact Except.noConfusion h
  | ok raw =>
    rw [htok] at h
    simp only [] at h
    cases hpv : parseValue ((attach raw).length + 1) (attach raw) with
    | error e => rw [hpv] at h; exact Except.noConfusion h
    | ok vr =>
      rw [hpv] at h
      simp only [] at h
      split at h
      case h_2 => exact Except.noConfusion h
      rename_i hnilr
      have hraw : ∀ t ∈ raw, rawCmtOk t = true := by
        unfold tokenizeRaw at htok
        exact tokenizeF_cmtOk _ _ htok
      have htokcl : ∀ t ∈ attach raw, tokCmtOk t = true := attach_cmtOk raw hraw
      obtain ⟨hid, hcm, -⟩ := pcV _ (attach raw) vr.1 vr.2 (by simpa using hpv)
        htokcl
      exact buildGraph_props h hid hcm

theorem sortRecords_idem (l : List ObjectRecord) :
    sortRecords (sortRecords l) = sortRecords l := by
  unfold sortRecords
  haveI : IsTotal ObjectRecord (fun a b => a.id ≤ b.id) :=
    ⟨fun a b => le_total a.id b.id⟩
  haveI : IsTrans ObjectRecord (fun a b => a.id ≤ b.id) :=
    ⟨fun a b c hab hbc => le_trans hab hbc⟩
  exact List.Sorted.insertionSort_eq (List.sorted_insertionSort _ l)

/-- Serializing the canonical form reproduces the canonical bytes. -/
theorem serialize_canon (g : Graph) : serialize (canonGraph g) = serialize g := by
  unfold serialize serGraphTokens rootValue canonGraph
  simp only [sortRecords_idem]

/-- C3: the serializer/parser round trip. For every validated graph
(zero blocking violations; comments renderable), parsing the canonical
serialization returns the canonical form, which is graph-equal to the
input; and for every document the parser accepts, re-parsing its
serialization yields a graph-equal graph. -/
theorem claim_C3_roundtrip :
    (∀ g : Graph, blockingViolations g = [] → cmtsOkG g = true →
        parse (serialize g) = .ok (canonGraph g) ∧ graphEq (canonGraph g) g)
      ∧ ∀ (x : List Char) (g : Graph), parse x = .ok g →
          parse (serialize g) = .ok (canonGraph g) ∧ graphEq (canonGraph g) g := by
  have hcanon : ∀ g : Graph, graphEq (canonGraph g) g := fun g =>
    ⟨List.perm_insertionSort _ _, rfl, rfl⟩
  constructor
  · intro g hb hcm
    simp only [cmtsOkG, Bool.and_eq_true, List.all_eq_true] at hcm
    exact ⟨parse_serialize g (root_hex_of_blocking hb)
      (fieldsOk_of_blocking hb) (fun r hr => hcm.1 r hr) hcm.2
      (nodup_ids_of_blocking hb), hcanon g⟩
  · intro x g hp
    obtain ⟨h1, h2, h3, h4, h5⟩ := parse_props hp
    exact ⟨parse_serialize g h1 h2 h3 h4 h5, hcanon g⟩

/-- A small validated graph: one file-reference record, referenced as the
root object. -/
def gC3 : Graph :=
  { objects := [{ id := "A139CF9EFAAE92F66141FC20", isa := "PBXFileReference",
                  fields := [] }],
    rootObject := "A139CF9EFAAE92F66141FC20",
    rootComment := none }

theorem claim_C3_witness :
    (blockingViolations gC3 = [] ∧ cmtsOkG gC3 = true)
      ∧ parse (serialize gC3) = .ok (canonGraph gC3)
        ∧ graphEq (canonGraph gC3) gC3 :=
  ⟨⟨by decide, by decide⟩, claim_C3_roundtrip.1 gC3 (by decide) (by decide)⟩

/-- C4: canonicalization is byte-for-byte idempotent — whatever document
the parser accepts (canonical or hand-edited), serializing its parse,
re-parsing and serializing again reproduces the same byte sequence:
`serialize (parse (serialize (parse x))) = serialize (parse x)`. -/
theorem claim_C4_canonicalization_idempotent :
    ∀ (x : List Char) (g : Graph), parse x = .ok g →
      ∃ g2 : Graph, parse (serialize g) = .ok g2
        ∧ serialize g2 = serialize g := by
  intro x g hp
  obtain ⟨h1, h2, h3, h4, h5⟩ := parse_props hp
  exact ⟨canonGraph g, parse_serialize g h1 h2 h3 h4 h5, serialize_canon g⟩

/-- A non-canonical hand-written document: no indentation, all on one
line past the header. -/
def xC4 : List Char :=
  ("// !$*UTF8*$!\n\x7bobjects = \x7b\x7d; rootObject = AAAAAAAAAAAAAAAAAAAAAAAA;\x7d").toList

/-- The graph `xC4` parses to. -/
def gC4 : Graph :=
  { objects := [], rootObject := "AAAAAAAAAAAAAAAAAAAAAAAA", rootComment := none }

theorem claim_C4_witness :
    parse xC4 = .ok gC4
      ∧ ∃ g2 : Graph, parse (serialize gC4) = .ok g2
          ∧ serialize g2 = serialize gC4 :=
  ⟨rfl, claim_C4_canonicalization_idempotent xC4 gC4 rfl⟩

/-- Modelled from the spec: the typed results of Mutation API calls,
never thrown across the transaction boundary. -/
inductive GraphError where
  | duplicateIdentifier
  | targetNotFound
  | duplicateEdge
  | wouldViolateIntegrity (violations : List Violation)
  deriving DecidableEq, Repr

/-- Modelled from the spec: rejection-and-regeneration id generation —
walk the generator's stream and return the first candidate absent from
the objects table, trying one more candidate than there are records. -/
def freshIdFrom (gen : Nat → String) (g : Graph) : Option String :=
  ((List.range (g.objects.length + 1)).map gen).find? fun i =>
    decide (i ∉ g.ids)

/-- Modelled from the spec: `addObject(isa, fields)` — generate a fresh
id guaranteed absent from the current table, insert the record. -/
def addObject (gen : Nat → String) (isa : String)
    (fields : List (String × Value)) (g : Graph) :
    Except GraphError (String × Graph) :=
  match freshIdFrom gen g with
  | some i => .ok (i,
      { g with objects :=
          g.objects ++ [{ id := i, isa := isa, fields := fields }] })
  | none => .error .duplicateIdentifier

/-- Appending a commented reference into a value, turning a non-array
value into a two-element array. -/
def pushIdentC (x : String) (cmt : Option String) : Value → Value
  | .arr es => .arr (es ++ [.ident x cmt])
  | v => .arr [v, .ident x cmt]

/-- Appending a commented reference into the named field, creating the
field as a fresh one-element array when absent. -/
def injectFieldsC (f x : String) (cmt : Option String)
    (fields : List (String × Value)) : List (String × Value) :=
  if f ∈ fields.map Prod.fst then
    fields.map fun kv => if kv.1 = f then (kv.1, pushIdentC x cmt kv.2) else kv
  else fields ++ [(f, .arr [.ident x cmt])]

/-- Whether the edge triple `(c, f, x)` already exists: container `c`
has an `Ident(x)` inside its field `f`. -/
def hasEdge (g : Graph) (c f x : String) : Bool :=
  g.objects.any fun r => r.id == c && r.fields.any fun kv =>
    kv.1 == f && (identsInValue kv.2).contains x

/-- Modelled from the spec: `addEdge(containerId, field, targetId,
comment)` — `TargetNotFound` when the target id is absent from the
table, `DuplicateEdge` when the same triple already exists, otherwise
append the reference. -/
def addEdge (g : Graph) (c f x : String) (cmt : Option String) :
    Except GraphError Graph :=
  if x ∈ g.ids then
    if hasEdge g c f x then .error .duplicateEdge
    else .ok { g with objects := g.objects.map fun r =>
        if r.id = c then { r with fields := injectFieldsC f x cmt r.fields }
        else r }
  else .error .targetNotFound

/-- Removing the first `Ident(x)` element of an element list; the flag
reports whether one was removed. -/
def removeFirstIdent (x : String) : List Value → List Value × Bool
  | [] => ([], false)
  | v :: vs =>
    if isIdentOf x v then (vs, true)
    else
      match removeFirstIdent x vs with
      | (vs2, b) => (v :: vs2, b)

/-- Removing one matching reference from a value. -/
def removeOneIdent (x : String) : Value → Value
  | .arr es => .arr (removeFirstIdent x es).1
  | v => if isIdentOf x v then .arr [] else v

/-- Modelled from the spec: `removeEdge(containerId, field, targetId)` —
remove one matching reference, report whether anything was removed. -/
def removeEdge (g : Graph) (c f x : String) : Graph × Bool :=
  if hasEdge g c f x then
    ({ g with objects := g.objects.map fun r =>
        if r.id = c then
          { r with fields := r.fields.map fun kv =>
              if kv.1 = f then (kv.1, removeOneIdent x kv.2) else kv }
        else r }, true)
  else (g, false)

mutual

/-- Structural equality of values, used by the permutation check. -/
def valueBEq : Value → Value → Bool
  | .str a, .str b => a == b
  | .ident a ca, .ident b cb => a == b && ca == cb
  | .dict as, .dict bs => pairsBEq as bs
  | .arr as, .arr bs => listBEq as bs
  | _, _ => false

/-- `valueBEq` over element lists. -/
def listBEq : List Value → List Value → Bool
  | [], [] => true
  | a :: as2, b :: bs => valueBEq a b && listBEq as2 bs
  | _, _ => false

/-- `valueBEq` over pair lists. -/
def pairsBEq : List (String × Value) → List (String × Value) → Bool
  | [], [] => true
  | (ka, va) :: as2, (kb, vb) :: bs =>
      ka == kb && valueBEq va vb && pairsBEq as2 bs
  | _, _ => false

end

/-- Removing the first element structurally equal to `v`, if any. -/
def removeFirstEq (v : Value) : List Value → Option (List Value)
  | [] => none
  | w :: ws =>
    if valueBEq v w then some ws
    else (removeFirstEq v ws).map (w :: ·)

/-- Multiset-style permutation check, bounded by the length of the first
list (each step removes one element). -/
def isPermOfF : Nat → List Value → List Value → Bool
  | _, [], [] => true
  | _, [], _ :: _ => false
  | 0, _ :: _, _ => false
  | fuel + 1, v :: vs, ws =>
    match removeFirstEq v ws with
    | some ws2 => isPermOfF fuel vs ws2
    | none => false

/-- Whether one element list is a permutation of another. -/
def isPermOf (vs ws : List Value) : Bool := isPermOfF vs.length vs ws

/-- Modelled from the spec: `reorder(containerId, field, newOrder)` —
replace an `Array` field in place when `newOrder` is a permutation of
its elements, a typed error otherwise. -/
def reorder (g : Graph) (c f : String) (newOrder : List Value) :
    Except GraphError Graph :=
  if g.objects.any fun r => r.id == c && r.fields.any fun kv =>
      kv.1 == f && (match kv.2 with
        | .arr es => isPermOf newOrder es
        | _ => false) then
    .ok { g with objects := g.objects.map fun r =>
        if r.id = c then
          { r with fields := r.fields.map fun kv =>
              if kv.1 = f then (kv.1, .arr newOrder) else kv }
        else r }
  else .error .targetNotFound

/-- Modelled from the spec: the Mutation API's operations. -/
inductive MutOp where
  | addObject (gen : Nat → String) (isa : String)
      (fields : List (String × Value))
  | deleteObject (i : String)
  | addEdge (c f x : String) (cmt : Option String)
  | removeEdge (c f x : String)
  | reorder (c f : String) (newOrder : List Value)

/-- One in-memory application of an operation, before validation. -/
def applyOp : MutOp → Graph → Except GraphError Graph
  | .addObject gen isa fields, g => (addObject gen isa fields g).map (·.2)
  | .deleteObject i, g => .ok (deleteObject g i).1
  | .addEdge c f x cmt, g => addEdge g c f x cmt
  | .removeEdge c f x, g => .ok (removeEdge g c f x).1
  | .reorder c f ord, g => reorder g c f ord

/-- The in-memory graph together with the backing file's bytes. -/
structure PState where
  graph : Graph
  file : List Char

/-- Modelled from the spec: the transaction wrapper — snapshot, apply in
memory, re-run the Integrity Checker, commit (and persist the canonical
bytes) only with no blocking violations, otherwise report the typed
error and leave graph and file exactly as before. -/
def transact (op : MutOp) (s : PState) : PState × Option GraphError :=
  match applyOp op s.graph with
  | .error e => (s, some e)
  | .ok g2 =>
    if blockingViolations g2 = [] then
      ({ graph := g2, file := serialize g2 }, none)
    else (s, some (.wouldViolateIntegrity (blockingViolations g2)))

/-- C2: every Mutation API operation is transactional — on any typed
error the in-memory graph and the backing file are exactly as before the
call, and on success no blocking violation remains and the backing file
is exactly the serialization of the committed graph, so neither is ever
left partially applied. -/
theorem claim_C2_transactional :
    ∀ (op : MutOp) (s : PState),
      ((transact op s).2.isSome = true → (transact op s).1 = s)
        ∧ ((transact op s).2 = none →
            blockingViolations (transact op s).1.graph = []
              ∧ (transact op s).1.file = serialize (transact op s).1.graph) := by
  intro op s
  unfold transact
  cases happ : applyOp op s.graph with
  | error e =>
    simp only [happ]
    constructor
    · intro h2
      trivial
    · intro hnone
      simp at hnone
  | ok g2 =>
    simp only [happ]
    by_cases hb : blockingViolations g2 = []
    · rw [if_pos hb]
      constructor
      · intro hsome
        simp at hsome
      · intro h2
        exact ⟨hb, by trivial⟩
    · rw [if_neg hb]
      constructor
      · intro h2
        trivial
      · intro hnone
        simp at hnone

/-- An empty graph state for exercising the transaction wrapper. -/
def sC2 : PState :=
  { graph := { objects := [], rootObject := "CCCCCCCCCCCCCCCCCCCCCCCC",
               rootComment := none },
    file := [] }

/-- An operation whose target id is absent, so the transaction reports a
typed error. -/
def opC2 : MutOp :=
  .addEdge "AAAAAAAAAAAAAAAAAAAAAAAA" "files" "DDDDDDDDDDDDDDDDDDDDDDDD" none

theorem claim_C2_witness :
    (transact opC2 sC2).2.isSome = true ∧ (transact opC2 sC2).1 = sC2 :=
  ⟨by decide, (claim_C2_transactional opC2 sC2).1 (by decide)⟩

theorem find?_prop {α : Type} (p : α → Bool) :
    ∀ {l : List α} {a : α}, l.find? p = some a → p a = true
  | [], a, h => by simp [List.find?] at h
  | x :: xs, a, h => by
    rw [List.find?] at h
    cases hp : p x with
    | true => rw [hp] at h; cases h; exact hp
    | false => rw [hp] at h; simp only [] at h; exact find?_prop p h

/-- C5: `addObject` always returns a fresh identifier — whenever it
succeeds, the returned id was absent from the table at insertion time
and is appended to it (so across any sequence of calls, no call returns
an id already present); and success is guaranteed whenever the
generator's candidates collide neither with each other (the fallback
stream is collision-free) since trying one more candidate than there are
records always finds a fresh one. -/
theorem claim_C5_addObject_fresh :
    (∀ (gen : Nat → String) (isa : String) (fields : List (String × Value))
        (g : Graph) (i : String) (g2 : Graph),
        addObject gen isa fields g = .ok (i, g2) →
          i ∉ g.ids ∧ g2.ids = g.ids ++ [i])
      ∧ ∀ (gen : Nat → String) (g : Graph),
          (((List.range (g.objects.length + 1)).map gen).Nodup) →
          ∀ (isa : String) (fields : List (String × Value)),
            ∃ i g2, addObject gen isa fields g = .ok (i, g2) ∧ i ∉ g.ids := by
  have hfresh : ∀ (gen : Nat → String) (g : Graph) (i : String),
      freshIdFrom gen g = some i → i ∉ g.ids := by
    intro gen g i hf
    unfold freshIdFrom at hf
    exact of_decide_eq_true (find?_prop (fun j => decide (j ∉ g.ids)) hf)
  constructor
  · intro gen isa fields g i g2 h
    unfold addObject at h
    cases hf : freshIdFrom gen g with
    | none => rw [hf] at h; exact Except.noConfusion h
    | some i0 =>
      rw [hf] at h
      simp only [] at h
      cases h
      exact ⟨hfresh gen g _ hf, by simp [Graph.ids]⟩
  · intro gen g hnd isa fields
    cases hf : freshIdFrom gen g with
    | some i0 =>
      refine ⟨i0, { g with objects :=
          g.objects ++ [{ id := i0, isa := isa, fields := fields }] },
        ?_, hfresh gen g i0 hf⟩
      unfold addObject
      rw [hf]
    | none =>
      exfalso
      unfold freshIdFrom at hf
      have hall := List.find?_eq_none.1 hf
      have hsub : ∀ x ∈ (List.range (g.objects.length + 1)).map gen,
          x ∈ g.ids := by
        intro x hx
        have := hall x hx
        simpa using this
      have hcard1 : ((List.range (g.objects.length + 1)).map gen).toFinset.card
          = g.objects.length + 1 := by
        rw [List.toFinset_card_of_nodup hnd]
        simp
      have hsub2 : ((List.range (g.objects.length + 1)).map gen).toFinset
          ⊆ g.ids.toFinset := by
        intro x hx
        rw [List.mem_toFinset] at hx ⊢
        exact hsub x hx
      have hcard2 := Finset.card_le_card hsub2
      have hcard3 : g.ids.toFinset.card ≤ g.objects.length := by
        calc g.ids.toFinset.card ≤ g.ids.length := List.toFinset_card_le _
          _ = g.objects.length := by simp [Graph.ids]
      omega

/-- A two-candidate generator whose first candidate collides with the
table. -/
def genC5 : Nat → String :=
  fun n => if n = 0 then "AAAAAAAAAAAAAAAAAAAAAAAA" else "EEEEEEEEEEEEEEEEEEEEEEEE"

/-- A one-record table already holding the generator's first
candidate. -/
def gC5 : Graph :=
  { objects := [{ id := "AAAAAAAAAAAAAAAAAAAAAAAA", isa := "PBXGroup",
                  fields := [] }],
    rootObject := "AAAAAAAAAAAAAAAAAAAAAAAA",
    rootComment := none }

theorem claim_C5_witness :
    (((List.range (gC5.objects.length + 1)).map genC5).Nodup)
      ∧ ∃ i g2, addObject genC5 "PBXGroup" [] gC5 = .ok (i, g2)
          ∧ i ∉ gC5.ids :=
  ⟨by decide, claim_C5_addObject_fresh.2 genC5 gC5 (by decide) "PBXGroup" []⟩

theorem identsIn_pushIdentC (x : String) (cmt : Option String) (v : Value) :
    identsInValue (pushIdentC x cmt v) = identsInValue v ++ [x] := by
  cases v with
  | arr es =>
    simp [pushIdentC, identsInValue, identsInList_append, identsInList]
  | str s => simp [pushIdentC, identsInValue, identsInList]
  | ident j c => simp [pushIdentC, identsInValue, identsInList]
  | dict ps => simp [pushIdentC, identsInValue, identsInList]

theorem injectFieldsC_hasEdge (f x : String) (cmt : Option String)
    (flds : List (String × Value)) :
    (injectFieldsC f x cmt flds).any
      (fun kv => kv.1 == f && (identsInValue kv.2).contains x) = true := by
  unfold injectFieldsC
  split
  · rename_i hf
    obtain ⟨kv, hkv, hkvf⟩ := List.mem_map.1 hf
    refine List.any_eq_true.2 ⟨(kv.1, pushIdentC x cmt kv.2), ?_, ?_⟩
    · exact List.mem_map.2 ⟨kv, hkv, by rw [if_pos hkvf]⟩
    · simp only [Bool.and_eq_true, beq_iff_eq]
      refine ⟨hkvf, ?_⟩
      rw [identsIn_pushIdentC]
      exact List.elem_eq_true_of_mem (List.mem_append.2 (Or.inr
        (List.mem_singleton.2 rfl)))
  · refine List.any_eq_true.2 ⟨(f, .arr [.ident x cmt]), ?_, ?_⟩
    · exact List.mem_append.2 (Or.inr (List.mem_singleton.2 rfl))
    · simp only [Bool.and_eq_true, beq_iff_eq]
      refine ⟨trivial, ?_⟩
      exact List.elem_eq_true_of_mem (by simp [identsInValue, identsInList])

theorem ids_addEdge_graph (g : Graph) (c f x : String) (cmt : Option String) :
    ({ g with objects := g.objects.map fun r =>
        if r.id = c then { r with fields := injectFieldsC f x cmt r.fields }
        else r } : Graph).ids = g.ids := by
  simp only [Graph.ids, List.map_map]
  apply List.map_congr_left
  intro r _
  by_cases h : r.id = c <;> simp [h]

theorem hasEdge_after_inject (g : Graph) (c f x : String) (cmt : Option String)
    (hc : c ∈ g.ids) :
    hasEdge { g with objects := g.objects.map fun r =>
        if r.id = c then { r with fields := injectFieldsC f x cmt r.fields }
        else r } c f x = true := by
  obtain ⟨r, hr, hid⟩ := List.mem_map.1 hc
  simp only [hasEdge, List.any_eq_true]
  refine ⟨{ r with fields := injectFieldsC f x cmt r.fields }, ?_, ?_⟩
  · exact List.mem_map.2 ⟨r, hr, by rw [if_pos hid]⟩
  · simp only [Bool.and_eq_true, beq_iff_eq]
    exact ⟨hid, injectFieldsC_hasEdge f x cmt r.fields⟩

/-- C6: `addEdge` error semantics — for every graph and triple, a call
whose target id is absent from the objects table fails with
`TargetNotFound`; and after a successful `addEdge` on an existing
container, a second call with exactly the same `(container, field,
target)` triple fails with `DuplicateEdge`, and run transactionally it
leaves the graph (hence the container's list, in length and order) and
the backing file exactly unchanged. -/
theorem claim_C6_addEdge_errors :
    (∀ (g : Graph) (c f x : String) (cmt : Option String), x ∉ g.ids →
        addEdge g c f x cmt = .error .targetNotFound)
      ∧ ∀ (g g2 : Graph) (c f x : String) (cmt cmt2 : Option String),
          c ∈ g.ids → addEdge g c f x cmt = .ok g2 →
            addEdge g2 c f x cmt2 = .error .duplicateEdge
              ∧ ∀ fl : List Char,
                  transact (.addEdge c f x cmt2) { graph := g2, file := fl }
                    = ({ graph := g2, file := fl }, some .duplicateEdge) := by
  constructor
  · intro g c f x cmt hx
    unfold addEdge
    rw [if_neg hx]
  · intro g g2 c f x cmt cmt2 hc h
    unfold addEdge at h
    split at h
    · rename_i hx
      split at h
      · exact Except.noConfusion h
      · cases h
        have hids := ids_addEdge_graph g c f x cmt
        have hdup :
            addEdge { g with objects := g.objects.map fun r =>
                if r.id = c then
                  { r with fields := injectFieldsC f x cmt r.fields }
                else r } c f x cmt2 = .error .duplicateEdge := by
          unfold addEdge
          rw [if_pos (by rw [hids]; exact hx)]
          rw [if_pos (hasEdge_after_inject g c f x cmt hc)]
        refine ⟨hdup, fun fl => ?_⟩
        unfold transact applyOp
        simp only [hdup]
    · exact Except.noConfusion h

/-- A two-record graph: a group container and a file reference. -/
def gC6 : Graph :=
  { objects := [{ id := "AAAAAAAAAAAAAAAAAAAAAAAA", isa := "PBXGroup",
                  fields := [] },
                { id := "BBBBBBBBBBBBBBBBBBBBBBBB",
                  isa := "PBXFileReference", fields := [] }],
    rootObject := "AAAAAAAAAAAAAAAAAAAAAAAA",
    rootComment := none }

/-- `gC6` after one `addEdge` linking the file into the group. -/
def gC6done : Graph :=
  { objects := [{ id := "AAAAAAAAAAAAAAAAAAAAAAAA", isa := "PBXGroup",
                  fields :=
                    [("files",
                      .arr [.ident "BBBBBBBBBBBBBBBBBBBBBBBB" none])] },
                { id := "BBBBBBBBBBBBBBBBBBBBBBBB",
                  isa := "PBXFileReference", fields := [] }],
    rootObject := "AAAAAAAAAAAAAAAAAAAAAAAA",
    rootComment := none }

/-- A one-record graph missing the would-be target. -/
def gC6missing : Graph :=
  { objects := [{ id := "AAAAAAAAAAAAAAAAAAAAAAAA", isa := "PBXGroup",
                  fields := [] }],
    rootObject := "AAAAAAAAAAAAAAAAAAAAAAAA",
    rootComment := none }

theorem claim_C6_witness :
    ("BBBBBBBBBBBBBBBBBBBBBBBB" ∉ gC6missing.ids
        ∧ addEdge gC6missing "AAAAAAAAAAAAAAAAAAAAAAAA" "files"
            "BBBBBBBBBBBBBBBBBBBBBBBB" none = .error .targetNotFound)
      ∧ ("AAAAAAAAAAAAAAAAAAAAAAAA" ∈ gC6.ids
        ∧ addEdge gC6 "AAAAAAAAAAAAAAAAAAAAAAAA" "files"
            "BBBBBBBBBBBBBBBBBBBBBBBB" none = .ok gC6done
        ∧ addEdge gC6done "AAAAAAAAAAAAAAAAAAAAAAAA" "files"
            "BBBBBBBBBBBBBBBBBBBBBBBB" none = .error .duplicateEdge
        ∧ ∀ fl : List Char,
            transact (.addEdge "AAAAAAAAAAAAAAAAAAAAAAAA" "files"
                "BBBBBBBBBBBBBBBBBBBBBBBB" none)
              { graph := gC6done, file := fl }
              = ({ graph := gC6done, file := fl }, some .duplicateEdge)) :=
  ⟨⟨by decide,
    claim_C6_addEdge_errors.1 gC6missing "AAAAAAAAAAAAAAAAAAAAAAAA" "files"
      "BBBBBBBBBBBBBBBBBBBBBBBB" none (by decide)⟩,
   by decide, rfl,
   claim_C6_addEdge_errors.2 gC6 gC6done "AAAAAAAAAAAAAAAAAAAAAAAA" "files"
     "BBBBBBBBBBBBBBBBBBBBBBBB" none none (by decide) rfl⟩

end PBX
